import Mathlib

/-!
Verification of the CUMATDL course-builder mirroring tool (src/src/index.ts and the
variant in src/unnamed/part_000) against its natural-language specification.

The development shallowly embeds the pure core of the program:

* the character-level helpers used by the JavaScript runtime primitives the code
  relies on (`decodeURIComponent`, `decodeURI`, the WHATWG URL path parser, the
  case-insensitive year-fix regex, `String.prototype.includes` and friends);
* `localPathFromUrl`, `downloadFile` and the per-course fetch loop;
* `normalizeUrl`, the in-page li pass, the pipeline-side `usableUrls` filter and
  the `a[href]` rewrite pass;
* `toRelative` / `relativePath`, `parseCourseSelection`, `evaluateWithRetry`,
  and the shape of the main course loop.

Strings are modelled as their character lists (`String.data`); fallible
JavaScript operations (code paths that throw) are modelled with `Option` or
`Except`.  All definitions are executable.
-/

namespace CUMATDL

/-! ## Character and string primitives -/

/-- ASCII lowercasing of one character.  The JavaScript regex `i` flag on the
ASCII-only patterns used by the program canonicalises exactly the ASCII letters
(non-ASCII characters never case-fold onto ASCII ones under the ECMAScript
Canonicalize rules for non-unicode regexes). -/
def lcChar (c : Char) : Char :=
  match c with
  | 'A' => 'a' | 'B' => 'b' | 'C' => 'c' | 'D' => 'd' | 'E' => 'e' | 'F' => 'f'
  | 'G' => 'g' | 'H' => 'h' | 'I' => 'i' | 'J' => 'j' | 'K' => 'k' | 'L' => 'l'
  | 'M' => 'm' | 'N' => 'n' | 'O' => 'o' | 'P' => 'p' | 'Q' => 'q' | 'R' => 'r'
  | 'S' => 's' | 'T' => 't' | 'U' => 'u' | 'V' => 'v' | 'W' => 'w' | 'X' => 'x'
  | 'Y' => 'y' | 'Z' => 'z'
  | c => c

/-- ASCII lowercasing of a character list. -/
def lcList (cs : List Char) : List Char := cs.map lcChar

/-- Boolean prefix test on character lists (JS `String.prototype.startsWith`). -/
def seqAt : List Char → List Char → Bool
  | [], _ => true
  | _ :: _, [] => false
  | a :: as, b :: bs => a = b && seqAt as bs

/-- JS `String.prototype.startsWith`. -/
def strStarts (s pre : String) : Bool := seqAt pre.data s.data

/-- Substring test on character lists (JS `String.prototype.includes`). -/
def containsSeq (needle : List Char) : List Char → Bool
  | [] => seqAt needle []
  | c :: t => seqAt needle (c :: t) || containsSeq needle t

/-- JS `s.includes(sub)`. -/
def jsIncludes (s sub : String) : Bool := containsSeq sub.data s.data

/-- Case-insensitive substring test, used to model `/.../i.test(msg)`. -/
def includesCI (s sub : String) : Bool := containsSeq (lcList sub.data) (lcList s.data)

/-- Value of one hexadecimal digit, as accepted inside a `%XX` escape. -/
def hexVal (c : Char) : Option Nat :=
  match c with
  | '0' => .some 0 | '1' => .some 1 | '2' => .some 2 | '3' => .some 3
  | '4' => .some 4 | '5' => .some 5 | '6' => .some 6 | '7' => .some 7
  | '8' => .some 8 | '9' => .some 9
  | 'a' => .some 10 | 'b' => .some 11 | 'c' => .some 12 | 'd' => .some 13
  | 'e' => .some 14 | 'f' => .some 15
  | 'A' => .some 10 | 'B' => .some 11 | 'C' => .some 12 | 'D' => .some 13
  | 'E' => .some 14 | 'F' => .some 15
  | _ => .none

/-- Model of JS `decodeURIComponent` at the character level: each `%XX` escape
with two hex digits becomes the character with code `XX`, every other character
is kept, and a `%` not followed by two hex digits makes the whole call throw
(`none`).  The model works character-by-character rather than on UTF-8 bytes;
on the ASCII escapes relevant to path segments the two coincide, and the model
accepts a superset of the inputs the runtime accepts. -/
def percentDecodeChars : List Char → Option (List Char)
  | [] => some []
  | '%' :: h1 :: h2 :: rest =>
    match hexVal h1, hexVal h2 with
    | some a, some b => (percentDecodeChars rest).map (fun t => Char.ofNat (16 * a + b) :: t)
    | _, _ => none
  | '%' :: _ => none
  | c :: rest => (percentDecodeChars rest).map (fun t => c :: t)

/-! ## Lemmas about the primitives -/

theorem lcChar_eq_slash {c : Char} (h : lcChar c = '/') : c = '/' := by
  unfold lcChar at h
  split at h <;> first
  | exact h
  | exact absurd h (by decide)

theorem hexVal_le {c : Char} {a : Nat} (h : hexVal c = some a) : a < 16 := by
  unfold hexVal at h
  split at h <;> (try simp at h) <;> omega

theorem percentDecode_pct {h1 h2 : Char} {rest : List Char} {a b : Nat}
    (ha : hexVal h1 = some a) (hb : hexVal h2 = some b) :
    percentDecodeChars ('%' :: h1 :: h2 :: rest) =
      (percentDecodeChars rest).map (fun t => Char.ofNat (16 * a + b) :: t) := by
  rw [percentDecodeChars, ha, hb]

theorem percentDecode_cons {c : Char} {rest : List Char} (hc : c ≠ '%') :
    percentDecodeChars (c :: rest) = (percentDecodeChars rest).map (fun t => c :: t) := by
  rw [percentDecodeChars.eq_def]
  split <;> simp_all

/-- Shape of an input that decodes to a cons: it starts either with a literal
non-escape character or with a full `%XX` escape. -/
theorem percentDecode_some_cons {cs : List Char} {x : Char} {d : List Char}
    (h : percentDecodeChars cs = some (x :: d)) :
    (∃ r, cs = x :: r ∧ x ≠ '%' ∧ percentDecodeChars r = some d) ∨
    (∃ hd1 hd2 r a b, cs = '%' :: hd1 :: hd2 :: r ∧ hexVal hd1 = some a ∧
      hexVal hd2 = some b ∧ x = Char.ofNat (16 * a + b) ∧
      percentDecodeChars r = some d) := by
  rw [percentDecodeChars.eq_def] at h
  split at h
  · simp at h
  · rename_i hd1 hd2 rest
    rcases ha : hexVal hd1 with _ | a
    · rw [ha] at h
      simp at h
    · rcases hb : hexVal hd2 with _ | b
      · rw [ha, hb] at h
        simp at h
      · rw [ha, hb] at h
        rcases Option.map_eq_some'.mp h with ⟨t, ht, hxd⟩
        injection hxd with hx hd
        right
        exact ⟨_, _, _, a, b, rfl, ha, hb, hx.symm, hd ▸ ht⟩
  · simp at h
  · rcases Option.map_eq_some'.mp h with ⟨t, ht, hxd⟩
    injection hxd with hx hd
    left
    exact ⟨_, hx ▸ rfl, hx ▸ (by simp_all), hd ▸ ht⟩

theorem percentDecodeChars_nil {cs : List Char} (h : percentDecodeChars cs = some []) :
    cs = [] := by
  rw [percentDecodeChars.eq_def] at h
  split at h
  · rfl
  · rename_i hd1 hd2 rest
    rcases ha : hexVal hd1 with _ | a <;> rcases hb : hexVal hd2 with _ | b <;>
      rw [ha, hb] at h <;> simp at h
  · simp at h
  · simp at h

/-! ## Dot-segment forms

The WHATWG URL parser recognises a path segment as a single-dot or double-dot
segment when it is an ASCII case-insensitive match for `.` / `%2e`,
respectively `..` / `.%2e` / `%2e.` / `%2e%2e`. -/

def dotdotForms : List (List Char) :=
  [['.', '.'], ['.', '%', '2', 'e'], ['%', '2', 'e', '.'],
   ['%', '2', 'e', '%', '2', 'e']]

def isDoubleDotBuf (cs : List Char) : Bool := lcList cs ∈ dotdotForms

def isSingleDotBuf (cs : List Char) : Bool :=
  lcList cs = ['.'] || lcList cs = ['%', '2', 'e']

theorem charOfNat_dot_fin :
    ∀ a b : Fin 16, Char.ofNat (16 * a.val + b.val) = '.' → a.val = 2 ∧ b.val = 14 := by
  decide

theorem charOfNat_dot {a b : Nat} (ha : a < 16) (hb : b < 16)
    (h : Char.ofNat (16 * a + b) = '.') : a = 2 ∧ b = 14 :=
  charOfNat_dot_fin ⟨a, ha⟩ ⟨b, hb⟩ h

theorem hexVal_two {c : Char} (h : hexVal c = some 2) : c = '2' := by
  unfold hexVal at h
  split at h <;> simp_all

theorem hexVal_fourteen {c : Char} (h : hexVal c = some 14) : c = 'e' ∨ c = 'E' := by
  unfold hexVal at h
  split at h <;> simp_all

/-- An input decoding to a single dot is (case-insensitively) `.` or `%2e`. -/
theorem percentDecode_single_dot {cs : List Char}
    (h : percentDecodeChars cs = some ['.']) :
    lcList cs = ['.'] ∨ lcList cs = ['%', '2', 'e'] := by
  rcases percentDecode_some_cons h with ⟨r, hcs, _, hr⟩ | ⟨h1, h2, r, a, b, hcs, ha, hb, hx, hr⟩
  · have : r = [] := percentDecodeChars_nil hr
    subst this
    subst hcs
    left
    rfl
  · have : r = [] := percentDecodeChars_nil hr
    subst this
    obtain ⟨ha2, hb14⟩ := charOfNat_dot (hexVal_le ha) (hexVal_le hb) hx.symm
    subst ha2
    subst hb14
    have h1e : h1 = '2' := hexVal_two ha
    have h2e : h2 = 'e' ∨ h2 = 'E' := hexVal_fourteen hb
    subst h1e
    subst hcs
    rcases h2e with h2e | h2e <;> subst h2e <;> right <;> rfl

/-- An input decoding to `..` is one of the WHATWG double-dot segment forms. -/
theorem percentDecode_dotdot {cs : List Char}
    (h : percentDecodeChars cs = some ['.', '.']) : isDoubleDotBuf cs = true := by
  rcases percentDecode_some_cons h with ⟨r, hcs, _, hr⟩ | ⟨h1, h2, r, a, b, hcs, ha, hb, hx, hr⟩
  · subst hcs
    rcases percentDecode_single_dot hr with hrf | hrf <;>
      simp [isDoubleDotBuf, dotdotForms, lcList] at hrf ⊢ <;> simp_all [lcChar]
  · obtain ⟨ha2, hb14⟩ := charOfNat_dot (hexVal_le ha) (hexVal_le hb) hx.symm
    subst ha2
    subst hb14
    have h1e : h1 = '2' := hexVal_two ha
    have h2e : h2 = 'e' ∨ h2 = 'E' := hexVal_fourteen hb
    subst h1e
    subst hcs
    rcases percentDecode_single_dot hr with hrf | hrf <;> rcases h2e with h2e | h2e <;>
      subst h2e <;>
      simp [isDoubleDotBuf, dotdotForms, lcList] at hrf ⊢ <;> simp_all [lcChar]

/-! ## WHATWG URL path parsing

The program never manipulates raw pathnames directly: every pathname it sees
is produced by the browser's URL parser (`new URL(...)` or the `pathname`
setter).  We model the parser's *path state* for special (http/https) schemes:
the input is cut at `/` (and `\`, which special schemes treat as `/`), a
double-dot segment pops the last path entry, a single-dot segment is dropped
(both re-append an empty segment when they end the input), and every other
buffer is appended verbatim.  Percent-encoding of raw characters from the path
percent-encode set is omitted: it maps no character to `.` or `%`, so it can
neither create nor destroy dot segments, and no claim depends on it. -/

/-- One boundary step of the path state: `atEnd` is true when the boundary is
the end of the path (end of input, `?` or `#`) rather than a slash. -/
def flushSeg (buf : List Char) (atEnd : Bool) (path : List (List Char)) :
    List (List Char) :=
  if isDoubleDotBuf buf then
    if atEnd then path.dropLast ++ [[]] else path.dropLast
  else if isSingleDotBuf buf then
    if atEnd then path ++ [[]] else path
  else path ++ [buf]

def parsePathAux : List Char → List Char → List (List Char) → List (List Char)
  | [], buf, path => flushSeg buf true path
  | c :: rest, buf, path =>
    if c = '/' ∨ c = '\\' then parsePathAux rest [] (flushSeg buf false path)
    else parsePathAux rest (buf ++ [c]) path

/-- Path list of a parsed URL, from the raw path input (the part of the URL
after the authority, without its single leading slash and without query or
fragment).  The URL's serialised pathname is `/` followed by these segments
joined with `/`. -/
def parsePathSegs (cs : List Char) : List (List Char) := parsePathAux cs [] []

/-- A segment the parser can emit: no separators and not a dot form. -/
def goodSeg (s : List Char) : Prop :=
  '/' ∉ s ∧ '\\' ∉ s ∧ isDoubleDotBuf s = false ∧ isSingleDotBuf s = false

theorem goodSeg_nil : goodSeg [] := by
  refine ⟨by simp, by simp, ?_, ?_⟩ <;> decide

theorem mem_of_mem_dropLast {α : Type} {l : List α} {x : α}
    (h : x ∈ l.dropLast) : x ∈ l := by
  induction l with
  | nil => simp at h
  | cons a t ih =>
    cases t with
    | nil => simp at h
    | cons b u =>
      rcases List.mem_cons.mp h with h | h
      · exact h ▸ List.mem_cons_self _ _
      · exact List.mem_cons_of_mem _ (ih h)

theorem flushSeg_good {buf : List Char} {atEnd : Bool} {path : List (List Char)}
    (hp : ∀ s ∈ path, goodSeg s) (hb : '/' ∉ buf ∧ '\\' ∉ buf) :
    ∀ s ∈ flushSeg buf atEnd path, goodSeg s := by
  intro s hs
  unfold flushSeg at hs
  split at hs
  · split at hs
    · rcases List.mem_append.mp hs with hs | hs
      · exact hp _ (mem_of_mem_dropLast hs)
      · simp at hs
        exact hs ▸ goodSeg_nil
    · exact hp _ (mem_of_mem_dropLast hs)
  · split at hs
    · split at hs
      · rcases List.mem_append.mp hs with hs | hs
        · exact hp _ hs
        · simp at hs
          exact hs ▸ goodSeg_nil
      · exact hp _ hs
    · rcases List.mem_append.mp hs with hs | hs
      · exact hp _ hs
      · simp at hs
        subst hs
        exact ⟨hb.1, hb.2, by simp_all, by simp_all⟩

theorem parsePathAux_good {input buf : List Char} {path : List (List Char)}
    (hp : ∀ s ∈ path, goodSeg s) (hb : '/' ∉ buf ∧ '\\' ∉ buf) :
    ∀ s ∈ parsePathAux input buf path, goodSeg s := by
  induction input generalizing buf path with
  | nil => exact fun s hs => flushSeg_good hp hb s hs
  | cons c rest ih =>
    intro s hs
    rw [parsePathAux] at hs
    split at hs
    · exact ih (flushSeg_good hp hb) ⟨by simp, by simp⟩ s hs
    · rename_i hnc
      rw [not_or] at hnc
      refine ih hp ⟨?_, ?_⟩ s hs
      · simp only [List.mem_append, List.mem_singleton]
        rintro (h | h)
        · exact hb.1 h
        · exact hnc.1 h.symm
      · simp only [List.mem_append, List.mem_singleton]
        rintro (h | h)
        · exact hb.2 h
        · exact hnc.2 h.symm

theorem parsePathSegs_good {input : List Char} :
    ∀ s ∈ parsePathSegs input, goodSeg s :=
  parsePathAux_good (by simp) ⟨by simp, by simp⟩

theorem flushSeg_ne_nil {buf : List Char} {path : List (List Char)} :
    flushSeg buf true path ≠ [] := by
  unfold flushSeg
  split
  · simp
  · split
    · simp
    · simp

theorem parsePathAux_ne_nil {input buf : List Char} {path : List (List Char)} :
    parsePathAux input buf path ≠ [] := by
  induction input generalizing buf path with
  | nil => exact flushSeg_ne_nil
  | cons c rest ih =>
    rw [parsePathAux]
    split <;> exact ih

/-! ## Absolute URL strings and localPathFromUrl

`localPathFromUrl` (src/src/index.ts:181-187) does
`new URL(url)` and then works on `u.pathname`:

```ts
function localPathFromUrl(url: string): string {
  const u = new URL(url);
  const parts = u.pathname.split('/').filter(Boolean);
  if (parts[0] === 'course_builder') parts.shift();
  const decoded = parts.map(seg => decodeURIComponent(seg));
  return path.join(DOWNLOAD_ROOT, ...decoded);
}
```

We model `new URL(url)` for absolute special-scheme URLs as: scheme up to the
literal `://`, authority up to the first `/`, `?` or `#`, and the raw path up
to `?` or `#`, parsed with the path state machine above.  A URL the model does
not accept makes the function throw (`none`), as does a `decodeURIComponent`
failure. -/

/-- Split an absolute URL string at its `://`. -/
def splitSchemeSep : List Char → Option (List Char × List Char)
  | [] => none
  | ':' :: '/' :: '/' :: rest => some ([], rest)
  | c :: rest => (splitSchemeSep rest).map (fun p => (c :: p.1, p.2))

/-- Raw path of an absolute URL string: what stands between the authority and
the query/fragment.  Includes the leading slash when present. -/
def urlRawPath (url : List Char) : Option (List Char) :=
  (splitSchemeSep url).map (fun p =>
    let afterHost := p.2.dropWhile (fun c => ¬(c = '/' ∨ c = '?' ∨ c = '#'))
    afterHost.takeWhile (fun c => ¬(c = '?' ∨ c = '#')))

/-- Parsed (dot-resolved) path segments of an absolute URL string, i.e. the
segments of `new URL(url).pathname`. -/
def urlPathSegsOf (url : List Char) : Option (List (List Char)) :=
  (urlRawPath url).map parsePathSegs

/-- Sequence `decodeURIComponent` over a segment list; any failure throws. -/
def decodeAll : List (List Char) → Option (List (List Char))
  | [] => some []
  | s :: rest =>
    match percentDecodeChars s, decodeAll rest with
    | some d, some ds => some (d :: ds)
    | _, _ => none

/-- The `if (parts[0] === 'course_builder') parts.shift();` step. -/
def stripRootSeg (parts : List (List Char)) : List (List Char) :=
  match parts with
  | s :: rest => if s = "course_builder".data then rest else s :: rest
  | [] => []

/-- The decoded local segments of `localPathFromUrl`: the URL's non-empty
pathname segments, with a leading `course_builder` segment stripped, each
percent-decoded. -/
def localPathSegsChars (url : List Char) : Option (List (List Char)) :=
  match urlPathSegsOf url with
  | none => none
  | some segs => decodeAll (stripRootSeg (segs.filter (fun s => s ≠ [])))

/-- String-level wrapper for the decoded segments. -/
def localPathSegments (url : String) : Option (List String) :=
  (localPathSegsChars url.data).map (fun l => l.map String.mk)

/-- Mirror root: `path.resolve('./dl/')`, an absolute directory.  Its concrete
value depends on the working directory; `/dl` stands for it. -/
def DOWNLOAD_ROOT : String := "/dl"

/-- Split a character list on `/` (JS `String.prototype.split('/')`). -/
def splitSlash : List Char → List (List Char)
  | [] => [[]]
  | c :: rest =>
    if c = '/' then [] :: splitSlash rest
    else (c :: (splitSlash rest).headD []) :: (splitSlash rest).tail

/-- Node `path.normalize` segment processing for an absolute path: `.` and
empty segments vanish and `..` pops (dropping past the root is a no-op). -/
def normSegs (segs : List (List Char)) : List (List Char) :=
  segs.foldl
    (fun acc s =>
      if s = [] ∨ s = ['.'] then acc
      else if s = ['.', '.'] then acc.dropLast
      else acc ++ [s]) []

/-- Node `path.join(root, ...segs)` for an absolute `root`: concatenate with
slashes, then normalize. -/
def pathJoinChars (root : List Char) (segs : List (List Char)) : List Char :=
  let joined := root ++ segs.foldl (fun acc s => acc ++ '/' :: s) []
  let parts := (splitSlash joined).filter (fun s => s ≠ [])
  match normSegs parts with
  | [] => ['/']
  | ps => '/' :: ((ps.map (fun s => s ++ ['/'])).flatten).dropLast

/-- Full model of `localPathFromUrl`: `path.join(DOWNLOAD_ROOT, ...decoded)`,
or `none` when the original would throw. -/
def localPathFromUrl (url : String) : Option String :=
  (localPathSegsChars url.data).map
    (fun segs => String.mk (pathJoinChars DOWNLOAD_ROOT.data segs))

theorem decodeAll_mem {L D : List (List Char)} (h : decodeAll L = some D) :
    ∀ d ∈ D, ∃ s ∈ L, percentDecodeChars s = some d := by
  induction L generalizing D with
  | nil =>
    simp only [decodeAll] at h
    cases h
    simp
  | cons s rest ih =>
    rw [decodeAll] at h
    rcases hs : percentDecodeChars s with _ | ds
    · rw [hs] at h
      simp at h
    · rcases hr : decodeAll rest with _ | drest
      · rw [hs, hr] at h
        simp at h
      · rw [hs, hr] at h
        cases h
        intro d hd
        rcases List.mem_cons.mp hd with hd | hd
        · exact ⟨s, List.mem_cons_self _ _, hd ▸ hs⟩
        · rcases ih hr d hd with ⟨t, ht, hdec⟩
          exact ⟨t, List.mem_cons_of_mem _ ht, hdec⟩

theorem mem_stripRootSeg {parts : List (List Char)} {t : List Char}
    (h : t ∈ stripRootSeg parts) : t ∈ parts := by
  cases parts with
  | nil => simp [stripRootSeg] at h
  | cons s0 rest =>
    rw [stripRootSeg] at h
    split at h
    · exact List.mem_cons_of_mem _ h
    · exact h

theorem localPathSegsChars_mem {url : List Char} {csegs : List (List Char)}
    (h : localPathSegsChars url = some csegs) :
    ∀ c ∈ csegs, ∃ t, goodSeg t ∧ t ≠ [] ∧ percentDecodeChars t = some c := by
  intro c hc
  unfold localPathSegsChars at h
  rcases hu : urlPathSegsOf url with _ | psegs
  · rw [hu] at h
    simp at h
  · rw [hu] at h
    simp only at h
    rcases hraw : urlRawPath url with _ | raw
    · unfold urlPathSegsOf at hu
      rw [hraw] at hu
      simp at hu
    · have hps : psegs = parsePathSegs raw := by
        unfold urlPathSegsOf at hu
        rw [hraw] at hu
        simpa using hu.symm
      have hgood : ∀ s ∈ psegs, goodSeg s := hps ▸ parsePathSegs_good
      rcases decodeAll_mem h c hc with ⟨t, ht, hdec⟩
      have htf : t ∈ psegs.filter (fun s => s ≠ []) := mem_stripRootSeg ht
      rcases List.mem_filter.mp htf with ⟨htm, htne⟩
      exact ⟨t, hgood _ htm, by simpa using htne, hdec⟩

/-- C1: for every absolute URL string accepted by `localPathFromUrl`, each
decoded segment joined under `DOWNLOAD_ROOT` is non-empty and is not the
traversal segment `..` — the URL parser resolves every dot-segment spelling
(including percent-encoded ones such as `%2e%2e`) before the segments are
decoded. -/
theorem c1_localPath_no_traversal_segments (url : String) (segs : List String)
    (h : localPathSegments url = some segs) :
    ∀ s ∈ segs, s ≠ "" ∧ s ≠ ".." := by
  intro s hs
  unfold localPathSegments at h
  rcases hc : localPathSegsChars url.data with _ | csegs
  · rw [hc] at h
    simp at h
  · rw [hc] at h
    simp only [Option.map_some'] at h
    cases h
    rcases List.mem_map.mp hs with ⟨c, hcm, hcs⟩
    rcases localPathSegsChars_mem hc c hcm with ⟨t, hgood, htne, hdec⟩
    subst hcs
    constructor
    · intro hempty
      have hc0 : c = [] := by simpa using congrArg String.data hempty
      exact htne (percentDecodeChars_nil (hc0 ▸ hdec))
    · intro hdd
      have hc0 : c = ['.', '.'] := by simpa using congrArg String.data hdd
      have := percentDecode_dotdot (hc0 ▸ hdec)
      exact absurd this (by simp [hgood.2.2.1])

/-- Witness for C1 at a URL whose path contains a percent-encoded `%2e%2e`
dot-dot segment and a percent-encoded space. -/
theorem c1_localPath_no_traversal_segments_witness :
    localPathSegments
        "https://www.math.cuhk.edu.hk/course_builder/%2e%2e/MATH1010/a%20b.pdf" =
      some ["MATH1010", "a b.pdf"] ∧
    (∀ s ∈ ["MATH1010", "a b.pdf"], s ≠ "" ∧ s ≠ "..") :=
  ⟨by decide,
   c1_localPath_no_traversal_segments
     "https://www.math.cuhk.edu.hk/course_builder/%2e%2e/MATH1010/a%20b.pdf"
     ["MATH1010", "a b.pdf"] (by decide)⟩

/-! ## PathResolver: `splitSegments` / `toRelative`
(src/src/index.ts:266-280, captured inside the injected page function). -/

/-- `pathname.replace(/^\/+|\/+$/g, '').split('/').filter(Boolean)`: stripping
boundary slashes only removes segments that `filter(Boolean)` would drop, so
this equals splitting on `/` and keeping the non-empty pieces. -/
def splitSegments (s : String) : List String :=
  ((splitSlash s.data).filter (fun p => p ≠ [])).map String.mk

/-- The common-prefix scan `while (i < ... && base[i] === target[i]) i++`. -/
def commonPrefixLen : List String → List String → Nat
  | a :: as, b :: bs => if a = b then commonPrefixLen as bs + 1 else 0
  | _, _ => 0

/-- JS `Array.prototype.join('/')`. -/
def joinSlashStr : List String → String
  | [] => ""
  | s :: rest => s ++ (if rest = [] then "" else "/" ++ joinSlashStr rest)

/-- The `[...up, ...down]` array built by `toRelative`. -/
def relUpDown (baseParts targetParts : List String) : List String :=
  ((baseParts.drop (commonPrefixLen baseParts targetParts)).map (fun _ => "..")) ++
    targetParts.drop (commonPrefixLen baseParts targetParts)

/-- Core of `toRelative` on segment sequences: `rel || '.'` where `rel` is the
up/down array joined with `/`. -/
def relativePath (baseParts targetParts : List String) : String :=
  if joinSlashStr (relUpDown baseParts targetParts) = "" then "."
  else joinSlashStr (relUpDown baseParts targetParts)

/-- `toRelative` as written in the page script: the base directory's segments
are captured, the target path is split on the spot. -/
def toRelative (baseParts : List String) (targetPath : String) : String :=
  relativePath baseParts (splitSegments targetPath)

/-- Component list described by the spec: `len(base) − k` copies of `..`
(`k` the longest-common-prefix length) followed by `target[k:]`. -/
def specComps (base target : List String) : List String :=
  List.replicate
      (base.length - ((base.zip target).takeWhile (fun p => p.1 = p.2)).length) ".." ++
    target.drop ((base.zip target).takeWhile (fun p => p.1 = p.2)).length

/-- The spec's description of the algorithm, in its own terms: the components
joined with `/`, and `.` exactly when both sequences are fully consumed by the
common prefix. -/
def specRelativePath (base target : List String) : String :=
  if specComps base target = [] then "." else joinSlashStr (specComps base target)

theorem commonPrefixLen_eq_zip (base target : List String) :
    commonPrefixLen base target =
      ((base.zip target).takeWhile (fun p => p.1 = p.2)).length := by
  induction base generalizing target with
  | nil => cases target <;> simp [commonPrefixLen]
  | cons a as ih =>
    cases target with
    | nil => simp [commonPrefixLen]
    | cons b bs =>
      rw [commonPrefixLen]
      by_cases hab : a = b
      · simp [hab, List.takeWhile_cons, ih]
      · simp [hab, List.takeWhile_cons]

theorem commonPrefixLen_self (l : List String) : commonPrefixLen l l = l.length := by
  induction l with
  | nil => simp [commonPrefixLen]
  | cons a as ih => simp [commonPrefixLen, ih]

theorem map_const_dotdot (l : List String) :
    l.map (fun _ => (".." : String)) = List.replicate l.length ".." := by
  induction l with
  | nil => rfl
  | cons a t ih => simp [List.replicate_succ, ih]

theorem joinSlashStr_data_cons (s : String) (rest : List String) :
    (joinSlashStr (s :: rest)).data =
      s.data ++ (if rest = [] then "" else "/" ++ joinSlashStr rest).data := by
  rw [joinSlashStr]
  exact String.data_append s _

theorem joinSlashStr_eq_empty {l : List String} (hl : ∀ s ∈ l, s ≠ "")
    (h : joinSlashStr l = "") : l = [] := by
  cases l with
  | nil => rfl
  | cons s rest =>
    exfalso
    have hd := congrArg String.data h
    rw [joinSlashStr_data_cons] at hd
    have hs : s ≠ "" := hl s (List.mem_cons_self _ _)
    have hsd : s.data ≠ [] := fun hc => hs (by
      have := congrArg String.mk hc
      simpa using this)
    rcases List.exists_cons_of_ne_nil hsd with ⟨c, cs, hcs⟩
    rw [hcs] at hd
    simp at hd

theorem relUpDown_eq_specComps (base target : List String) :
    relUpDown base target = specComps base target := by
  unfold relUpDown specComps
  rw [← commonPrefixLen_eq_zip, map_const_dotdot, List.length_drop]

theorem relativePath_eq_spec (base target : List String) (ht : "" ∉ target) :
    relativePath base target = specRelativePath base target := by
  unfold relativePath specRelativePath
  rw [relUpDown_eq_specComps]
  have hall : ∀ s ∈ specComps base target, s ≠ "" := by
    intro s hs
    rcases List.mem_append.mp hs with hm | hm
    · rw [List.eq_of_mem_replicate hm]
      intro hc
      simp at hc
    · intro hc
      exact ht (hc ▸ List.mem_of_mem_drop hm)
  by_cases hnil : specComps base target = []
  · rw [hnil]
    simp [joinSlashStr]
  · have hne : joinSlashStr (specComps base target) ≠ "" := fun hc =>
      hnil (joinSlashStr_eq_empty hall hc)
    rw [if_neg hne, if_neg hnil]

theorem splitSlash_no_slash (cs : List Char) : ∀ p ∈ splitSlash cs, '/' ∉ p := by
  induction cs with
  | nil =>
    intro p hp
    rw [splitSlash] at hp
    simp at hp
    simp [hp]
  | cons c rest ih =>
    intro p hp
    rw [splitSlash] at hp
    by_cases hc : c = '/'
    · rw [if_pos hc] at hp
      rcases List.mem_cons.mp hp with hp | hp
      · simp [hp]
      · exact ih p hp
    · rw [if_neg hc] at hp
      rcases List.mem_cons.mp hp with hp | hp
      · subst hp
        intro hmem
        rcases List.mem_cons.mp hmem with hm | hm
        · exact hc hm.symm
        · rcases hr : splitSlash rest with _ | ⟨s, ss⟩
          · rw [hr] at hm
            simp at hm
          · rw [hr] at hm
            simp only [List.headD_cons] at hm
            exact ih s (hr ▸ List.mem_cons_self _ _) hm
      · rcases hr : splitSlash rest with _ | ⟨s, ss⟩
        · rw [hr] at hp
          simp at hp
        · rw [hr] at hp
          exact ih p (hr ▸ List.mem_cons_of_mem _ hp)

theorem mem_splitSegments {t : String} {s : String} (h : s ∈ splitSegments t) :
    s ≠ "" ∧ '/' ∉ s.data := by
  unfold splitSegments at h
  rcases List.mem_map.mp h with ⟨p, hp, hps⟩
  rcases List.mem_filter.mp hp with ⟨hpm, hpne⟩
  subst hps
  constructor
  · intro hc
    have : p = [] := by simpa using congrArg String.data hc
    simp [this] at hpne
  · exact splitSlash_no_slash t.data p hpm

theorem strStarts_slash_head {s : String} (h : s.data.head? ≠ some '/') :
    strStarts s "/" = false := by
  unfold strStarts seqAt
  rcases hd : s.data with _ | ⟨c, cs⟩
  · rfl
  · rw [hd] at h
    simp at h
    have : ('/' = c) = False := by simp [Ne.symm h]
    simp [seqAt, this]

theorem joinSlash_no_leading_slash {l : List String}
    (hl : ∀ s ∈ l, s ≠ "" ∧ s.data.head? ≠ some '/') :
    (joinSlashStr l).data.head? ≠ some '/' ∨ l = [] := by
  cases l with
  | nil => exact Or.inr rfl
  | cons x xs =>
    left
    rw [joinSlashStr_data_cons]
    have hx := hl x (List.mem_cons_self _ _)
    rcases hd : x.data with _ | ⟨c, cs⟩
    · exact absurd (by simpa using congrArg String.mk hd) hx.1
    · simp only [List.cons_append, List.head?_cons]
      rw [hd] at hx
      simpa using hx.2

theorem toRelative_no_leading_slash (baseParts : List String) (targetPath : String) :
    strStarts (toRelative baseParts targetPath) "/" = false := by
  apply strStarts_slash_head
  unfold toRelative relativePath
  split
  · decide
  · rename_i hrel
    have hl : ∀ s ∈ relUpDown baseParts (splitSegments targetPath),
        s ≠ "" ∧ s.data.head? ≠ some '/' := by
      intro s hs
      unfold relUpDown at hs
      rcases List.mem_append.mp hs with hm | hm
      · rcases List.mem_map.mp hm with ⟨_, _, hx⟩
        subst hx
        exact ⟨by decide, by decide⟩
      · have hx := mem_splitSegments (List.mem_of_mem_drop hm)
        refine ⟨hx.1, fun hc => ?_⟩
        rcases hd : s.data with _ | ⟨c, cs⟩
        · rw [hd] at hc
          simp at hc
        · rw [hd] at hc
          simp at hc
          exact hx.2 (by simp [hd, hc])
    rcases joinSlash_no_leading_slash hl with h | h
    · exact h
    · rw [h] at hrel
      exact absurd rfl hrel

/-- C6: `relativePath`/`toRelative` computes exactly the spec's relative path:
`len(base) − k` up-segments followed by `target[k:]` joined with `/`, `.` when
both sequences are fully consumed by the common prefix, never starting with
`/`; including the spec's three worked examples. -/
theorem c6_relativePath_correct :
    (∀ base target : List String, "" ∉ target →
      relativePath base target = specRelativePath base target) ∧
    (∀ l : List String, relativePath l l = ".") ∧
    (∀ baseParts : List String, ∀ targetPath : String,
      strStarts (toRelative baseParts targetPath) "/" = false) ∧
    relativePath ["a", "b"] ["a", "b"] = "." ∧
    relativePath ["a", "b"] ["a", "c"] = "../c" ∧
    relativePath [] ["x", "y"] = "x/y" := by
  refine ⟨relativePath_eq_spec, ?_, toRelative_no_leading_slash,
    by decide, by decide, by decide⟩
  intro l
  unfold relativePath relUpDown
  simp [commonPrefixLen_self, joinSlashStr]

/-- Witness for the hypothesis-carrying conjunct of C6 at concrete segments. -/
theorem c6_relativePath_correct_witness :
    ("" ∉ ["a", "c"]) ∧ relativePath ["a", "b"] ["a", "c"] =
      specRelativePath ["a", "b"] ["a", "c"] :=
  ⟨by decide, c6_relativePath_correct.1 ["a", "b"] ["a", "c"] (by decide)⟩

/-! ## parseCourseSelection (src/src/index.ts:122-151) -/

/-- JS `\s` / `String.prototype.trim` whitespace, restricted to the ASCII
blanks (space, tab, line feed, vertical tab, form feed, carriage return). -/
def isWsChar (c : Char) : Bool :=
  c = ' ' || c = '\t' || c = '\n' || c = '\x0b' || c = '\x0c' || c = '\r'

/-- JS `String.prototype.trim`. -/
def jsTrim (s : String) : String :=
  String.mk (((s.data.dropWhile isWsChar).reverse.dropWhile isWsChar).reverse)

/-- Numeric value of a digit run. -/
def natOfDigits (cs : List Char) : Nat :=
  cs.foldl (fun acc c => 10 * acc + (c.toNat - 48)) 0

/-- Match of the range regex `^(\d+)\s*-\s*(\d+)$` on a chunk, returning the
two captured numbers.  `\d+` is greedy and nothing after a maximal digit run
can make a shorter run succeed, so maximal munch is faithful. -/
def matchRange (cs : List Char) : Option (Nat × Nat) :=
  let d1 := cs.takeWhile Char.isDigit
  let r1 := cs.dropWhile Char.isDigit
  if d1 = [] then none
  else
    match r1.dropWhile isWsChar with
    | '-' :: r3 =>
      let r4 := r3.dropWhile isWsChar
      let d2 := r4.takeWhile Char.isDigit
      let r5 := r4.dropWhile Char.isDigit
      if d2 = [] ∨ r5 ≠ [] then none
      else some (natOfDigits d1, natOfDigits d2)
    | _ => none

/-- `Number(chunk)` followed by the `Number.isInteger` guard, modelled for the
non-negative decimal integer literals the selection UI documents.  Other
numeric literal forms (hex, exponent, fractions, signs) are treated as failing
the guard; every guarded outcome the caller distinguishes (reject vs. a
non-negative integer) is preserved on the documented input language. -/
def jsNumberNatM (s : String) : Option Nat :=
  if s.data ≠ [] ∧ s.data.all Char.isDigit then some (natOfDigits s.data) else none

/-- `Set.prototype.add` on an insertion-ordered duplicate-free list. -/
def insertSel (sels : List Nat) (n : Nat) : List Nat :=
  if n ∈ sels then sels else sels ++ [n]

/-- The chunk loop of `parseCourseSelection`, threading the selection set. -/
def parseChunks (maxN : Nat) : List String → List Nat → Except String (List Nat)
  | [], sels => Except.ok sels
  | chunk :: rest, sels =>
    match matchRange chunk.data with
    | some (a, b) =>
      if (if a > b then b else a) < 1 ∨ (if a > b then a else b) > maxN then
        Except.error ("Range is out of bounds (1-" ++ toString maxN ++ ").")
      else
        parseChunks maxN rest
          ((List.range' (if a > b then b else a)
              ((if a > b then a else b) - (if a > b then b else a) + 1)).foldl
            (fun s i => insertSel s (i - 1)) sels)
    | none =>
      match jsNumberNatM chunk with
      | some n =>
        if n < 1 ∨ n > maxN then
          Except.error ("Invalid selection (must be within 1-" ++ toString maxN ++ ").")
        else parseChunks maxN rest (insertSel sels (n - 1))
      | none =>
        Except.error ("Invalid selection (must be within 1-" ++ toString maxN ++ ").")

/-- Insertion step of an ascending numeric sort. -/
def insertSorted (n : Nat) : List Nat → List Nat
  | [] => [n]
  | m :: rest => if n ≤ m then n :: m :: rest else m :: insertSorted n rest

/-- `Array.from(selections).sort((a, b) => a - b)`. -/
def sortNat (l : List Nat) : List Nat := l.foldr insertSorted []

/-- Split a character list on `,` (JS `String.prototype.split(',')`). -/
def splitComma : List Char → List (List Char)
  | [] => [[]]
  | c :: rest =>
    if c = ',' then [] :: splitComma rest
    else (c :: (splitComma rest).headD []) :: (splitComma rest).tail

/-- The trimmed non-empty comma-separated chunks of the input. -/
def selectionChunks (input : String) : List String :=
  ((splitComma input.data).map (fun cs => jsTrim (String.mk cs))).filter
    (fun c => c ≠ "")

/-- Model of `parseCourseSelection(input, max)`. -/
def parseCourseSelection (input : String) (maxN : Nat) : Except String (List Nat) :=
  if selectionChunks input = [] then Except.error "No valid selections provided."
  else (parseChunks maxN (selectionChunks input) []).map sortNat

theorem mem_insertSel {sels : List Nat} {n x : Nat} (h : x ∈ insertSel sels n) :
    x ∈ sels ∨ x = n := by
  unfold insertSel at h
  split at h
  · exact Or.inl h
  · rcases List.mem_append.mp h with h | h
    · exact Or.inl h
    · simp at h
      exact Or.inr h

theorem nodup_insertSel {sels : List Nat} {n : Nat} (h : sels.Nodup) :
    (insertSel sels n).Nodup := by
  unfold insertSel
  split
  · exact h
  · rename_i hn
    rw [List.nodup_append]
    refine ⟨h, List.nodup_singleton n, ?_⟩
    intro x hx hxn
    rw [List.mem_singleton] at hxn
    exact hn (hxn ▸ hx)

theorem bounds_foldl_insertSel {maxN : Nat} {is : List Nat} {sels : List Nat}
    (hs : ∀ x ∈ sels, x < maxN) (hi : ∀ i ∈ is, i - 1 < maxN) :
    ∀ x ∈ is.foldl (fun s i => insertSel s (i - 1)) sels, x < maxN := by
  induction is generalizing sels with
  | nil => exact hs
  | cons i it ih =>
    intro x hx
    refine ih (fun y hy => ?_) (fun j hj => hi j (List.mem_cons_of_mem _ hj)) x hx
    rcases mem_insertSel hy with hy | hy
    · exact hs y hy
    · exact hy ▸ hi i (List.mem_cons_self _ _)

theorem nodup_foldl_insertSel {is : List Nat} {sels : List Nat} (hs : sels.Nodup) :
    (is.foldl (fun s i => insertSel s (i - 1)) sels).Nodup := by
  induction is generalizing sels with
  | nil => exact hs
  | cons i it ih => exact ih (nodup_insertSel hs)

theorem parseChunks_invariant {maxN : Nat} {chunks : List String} {sels out : List Nat}
    (hs : ∀ x ∈ sels, x < maxN) (hnd : sels.Nodup)
    (h : parseChunks maxN chunks sels = Except.ok out) :
    (∀ x ∈ out, x < maxN) ∧ out.Nodup := by
  induction chunks generalizing sels with
  | nil =>
    rw [parseChunks] at h
    cases h
    exact ⟨hs, hnd⟩
  | cons chunk rest ih =>
    rw [parseChunks] at h
    split at h
    · rename_i a b heq
      split_ifs at h with hab hb1 hb2
      · rw [not_or] at hb1
        refine ih (bounds_foldl_insertSel hs ?_) (nodup_foldl_insertSel hnd) h
        intro i hi
        have hm2 := List.mem_range'_1.mp hi
        omega
      · rw [not_or] at hb2
        refine ih (bounds_foldl_insertSel hs ?_) (nodup_foldl_insertSel hnd) h
        intro i hi
        have hm2 := List.mem_range'_1.mp hi
        omega
    · split at h
      · split at h
        · exact Except.noConfusion h
        · rename_i hbound
          rw [not_or] at hbound
          refine ih (fun y hy => ?_) (nodup_insertSel hnd) h
          rcases mem_insertSel hy with hy | hy
          · exact hs y hy
          · omega
      · exact Except.noConfusion h

theorem mem_insertSorted {n x : Nat} {l : List Nat} :
    x ∈ insertSorted n l ↔ x = n ∨ x ∈ l := by
  induction l with
  | nil => simp [insertSorted]
  | cons m rest ih =>
    rw [insertSorted]
    split
    · simp
    · simp only [List.mem_cons, ih]
      tauto

theorem sorted_insertSorted {n : Nat} {l : List Nat}
    (h : l.Pairwise (fun a b => a ≤ b)) :
    (insertSorted n l).Pairwise (fun a b => a ≤ b) := by
  induction l with
  | nil => simp [insertSorted]
  | cons m rest ih =>
    rw [insertSorted]
    rcases List.pairwise_cons.mp h with ⟨hm, hrest⟩
    split
    · rename_i hle
      refine List.pairwise_cons.mpr ⟨?_, h⟩
      intro y hy
      rcases List.mem_cons.mp hy with hy | hy
      · omega
      · exact Nat.le_trans hle (hm y hy)
    · rename_i hgt
      refine List.pairwise_cons.mpr ⟨?_, ih hrest⟩
      intro y hy
      rcases mem_insertSorted.mp hy with hy | hy
      · omega
      · exact hm y hy

theorem nodup_insertSorted {n : Nat} {l : List Nat} (hn : n ∉ l) (h : l.Nodup) :
    (insertSorted n l).Nodup := by
  induction l with
  | nil => simp [insertSorted]
  | cons m rest ih =>
    rw [insertSorted]
    rcases List.nodup_cons.mp h with ⟨hm, hrest⟩
    split
    · exact List.nodup_cons.mpr ⟨by simp_all, h⟩
    · refine List.nodup_cons.mpr ⟨?_, ih (fun hc => hn (List.mem_cons_of_mem _ hc)) hrest⟩
      intro hc
      rcases mem_insertSorted.mp hc with hc | hc
      · exact hn (hc ▸ List.mem_cons_self _ _)
      · exact hm hc

theorem sortNat_cons (a : Nat) (t : List Nat) :
    sortNat (a :: t) = insertSorted a (sortNat t) := rfl

theorem mem_sortNat {l : List Nat} {x : Nat} : x ∈ sortNat l ↔ x ∈ l := by
  induction l with
  | nil => simp [sortNat]
  | cons a t ih =>
    rw [sortNat_cons, mem_insertSorted, ih, List.mem_cons]

theorem sortNat_le (l : List Nat) : (sortNat l).Pairwise (fun a b => a ≤ b) := by
  induction l with
  | nil => simp [sortNat]
  | cons a t ih =>
    rw [sortNat_cons]
    exact sorted_insertSorted ih

theorem nodup_sortNat {l : List Nat} (h : l.Nodup) : (sortNat l).Nodup := by
  induction l with
  | nil => simp [sortNat]
  | cons a t ih =>
    rcases List.nodup_cons.mp h with ⟨ha, ht⟩
    rw [sortNat_cons]
    exact nodup_insertSorted (fun hc => ha (mem_sortNat.mp hc)) (ih ht)

theorem sortNat_sorted_strict {l : List Nat} (h : l.Nodup) :
    (sortNat l).Pairwise (fun a b => a < b) := by
  have hle : (sortNat l).Pairwise (fun a b => a ≤ b) := sortNat_le l
  have hnd : (sortNat l).Pairwise (fun a b => a ≠ b) := nodup_sortNat h
  exact (hle.and hnd).imp (fun hab => Nat.lt_of_le_of_ne hab.1 hab.2)

/-- C10: for every input and every `max ≥ 1`, `parseCourseSelection` either
throws or returns a strictly increasing, duplicate-free list of zero-based
indices below `max`; a reversed range such as `19-12` is accepted by swapping
its endpoints; an input with no non-empty comma-separated chunks throws. -/
theorem c10_parseCourseSelection_shape (input : String) (maxN : Nat)
    (_hmax : 1 ≤ maxN) :
    (∀ l, parseCourseSelection input maxN = Except.ok l →
      l.Pairwise (fun a b => a < b) ∧ ∀ x ∈ l, x < maxN) ∧
    (selectionChunks input = [] →
      ∃ e, parseCourseSelection input maxN = Except.error e) ∧
    parseCourseSelection "19-12" 20 =
      Except.ok [11, 12, 13, 14, 15, 16, 17, 18] := by
  refine ⟨?_, ?_, by rfl⟩
  · intro l hl
    unfold parseCourseSelection at hl
    split at hl
    · exact Except.noConfusion hl
    · rcases hpc : parseChunks maxN (selectionChunks input) [] with e | out
      · rw [hpc] at hl
        exact Except.noConfusion hl
      · rw [hpc] at hl
        simp only [Except.map] at hl
        cases hl
        have hinv := parseChunks_invariant (by simp) List.nodup_nil hpc
        exact ⟨sortNat_sorted_strict hinv.2, fun x hx => hinv.1 x (mem_sortNat.mp hx)⟩
  · intro hc
    unfold parseCourseSelection
    rw [if_pos hc]
    exact ⟨_, rfl⟩

/-- Witness for C10 at the concrete selection `3, 6, 12 - 13` with 20 courses. -/
theorem c10_parseCourseSelection_shape_witness :
    List.Pairwise (fun a b => a < b) [2, 5, 11, 12] ∧
    (∀ x ∈ [2, 5, 11, 12], x < 20) :=
  (c10_parseCourseSelection_shape "3, 6, 12 - 13" 20 (by decide)).1
    [2, 5, 11, 12] (by rfl)

/-! ## evaluateWithRetry (src/src/index.ts:241-259)

```ts
for (let attempt = 0; attempt < retries; attempt++) {
  try { return await page.evaluate(fn, arg); } catch (err) {
    const destroyed = /Execution context was destroyed|Cannot find context with specified id/i.test(message);
    if (!destroyed || attempt === retries - 1) throw err;
    ...retry...
  }
}
throw new Error('Evaluation retries exceeded');
```

An evaluation attempt is a function from the attempt index to its outcome;
the result also carries the number of attempts actually made. -/

/-- The transient error signature test
`/Execution context was destroyed|Cannot find context with specified id/i`. -/
def isTransientMsg (msg : String) : Bool :=
  includesCI msg "Execution context was destroyed" ||
    includesCI msg "Cannot find context with specified id"

/-- The retry loop; `fuel` is the number of remaining iterations
(`retries - attempt`), so the loop shape is exactly the `for` above. -/
def evalGo {α : Type} (f : Nat → Except String α) (retries : Nat) :
    Nat → Nat → Except String α × Nat
  | 0, attempt => (Except.error "Evaluation retries exceeded", attempt)
  | fuel + 1, attempt =>
    match f attempt with
    | Except.ok a => (Except.ok a, attempt + 1)
    | Except.error e =>
      if isTransientMsg e = true ∧ ¬(attempt = retries - 1) then
        evalGo f retries fuel (attempt + 1)
      else (Except.error e, attempt + 1)

def evaluateWithRetry {α : Type} (f : Nat → Except String α) (retries : Nat) :
    Except String α × Nat :=
  evalGo f retries retries 0

/-- An attempt sequence that fails with the transient signature on attempts
0, 1 and 2 and would succeed from attempt 3 on. -/
def transientThriceThenOk : Nat → Except String Nat := fun n =>
  if n < 3 then Except.error "Execution context was destroyed" else Except.ok 42

/-- Counterexample to C5: with the bound of 3 attempts, the third consecutive
transient failure already exhausts the retries (`attempt === retries - 1`
throws), so a success available on the fourth attempt is never reached — the
claim's "only a fourth consecutive transient failure exceeds the bound" fails
here. -/
theorem c5_retry_counterexample :
    evaluateWithRetry transientThriceThenOk 3 =
      (Except.error "Execution context was destroyed", 3) := by
  rfl

/-- C5 (amended): `evaluateWithRetry` makes at most 3 attempts; two transient
failures followed by a success return that success; a non-transient error is
propagated immediately after a single attempt; a *third* consecutive transient
failure exhausts the bound and the last error is propagated. -/
theorem c5_evaluateWithRetry_amended {α : Type} :
    (∀ (f : Nat → Except String α) (a : α) (e0 e1 : String),
      f 0 = Except.error e0 → isTransientMsg e0 = true →
      f 1 = Except.error e1 → isTransientMsg e1 = true →
      f 2 = Except.ok a →
      evaluateWithRetry f 3 = (Except.ok a, 3)) ∧
    (∀ (f : Nat → Except String α) (e : String),
      f 0 = Except.error e → isTransientMsg e = false →
      evaluateWithRetry f 3 = (Except.error e, 1)) ∧
    (∀ (f : Nat → Except String α) (e0 e1 e2 : String),
      f 0 = Except.error e0 → isTransientMsg e0 = true →
      f 1 = Except.error e1 → isTransientMsg e1 = true →
      f 2 = Except.error e2 →
      evaluateWithRetry f 3 = (Except.error e2, 3)) := by
  refine ⟨?_, ?_, ?_⟩
  · intro f a e0 e1 hf0 ht0 hf1 ht1 hf2
    simp [evaluateWithRetry, evalGo, hf0, ht0, hf1, ht1, hf2]
  · intro f e hf0 ht0
    simp [evaluateWithRetry, evalGo, hf0, ht0]
  · intro f e0 e1 e2 hf0 ht0 hf1 ht1 hf2
    simp [evaluateWithRetry, evalGo, hf0, ht0, hf1, ht1, hf2]

/-- Witness for C5's amended statement: two transient failures then success. -/
theorem c5_evaluateWithRetry_amended_witness :
    evaluateWithRetry
      (fun n => if n < 2 then Except.error "Execution context was destroyed"
                else Except.ok 42) 3 = (Except.ok 42, 3) :=
  c5_evaluateWithRetry_amended.1
    (fun n => if n < 2 then Except.error "Execution context was destroyed"
              else Except.ok 42)
    42 "Execution context was destroyed" "Execution context was destroyed"
    rfl (by decide) rfl (by decide) rfl

/-! ## Main course loop (src/src/index.ts:501-534)

```ts
for (const course of selectedCourses) {
  ...
  await processCourse(page, course, injectionConfig);
  completedCourses += 1;
  ...
}
...
})().catch(err => { ...; process.exit(1); });
```

There is no try/catch around `processCourse`: an error thrown by it (an
extraction failure after retries, or a non-transient evaluation error) leaves
the loop and reaches the top-level `.catch`, which exits the process.  The
loop is modelled over the per-course outcomes of `processCourse`. -/

/-- Run the main loop over per-course outcomes: the processed courses in
order, and the error reaching the top-level catch, if any. -/
def runCourses {α : Type} : List (Except String α) → List α × Option String
  | [] => ([], none)
  | Except.ok a :: rest => (a :: (runCourses rest).1, (runCourses rest).2)
  | Except.error e :: _ => ([], some e)

/-- Process exit code: the top-level catch calls `process.exit(1)`. -/
def runExitCode {α : Type} (cs : List (Except String α)) : Nat :=
  if ((runCourses cs).2).isSome then 1 else 0

/-- Counterexample to C3: when the first of two selected courses fails
permanently (retries exhausted), the second course is never processed and the
whole run exits with code 1, instead of the loop proceeding to the next
course. -/
theorem c3_unit_failure_counterexample :
    runCourses [Except.error "Evaluation retries exceeded", Except.ok 1] =
      ([], some "Evaluation retries exceeded") ∧
    runExitCode [Except.error "Evaluation retries exceeded", Except.ok 1] = 1 := by
  constructor
  · rfl
  · rfl

/-- C3 (amended): a permanent extraction failure aborts the entire run — the
courses before it are processed, the failing course's error propagates to the
top-level catch, no later course is processed, and the process exits with
code 1. -/
theorem c3_unit_failure_aborts_run {α : Type} (pre : List α)
    (post : List (Except String α)) (e : String) :
    runCourses (pre.map Except.ok ++ Except.error e :: post) = (pre, some e) ∧
    runExitCode (pre.map Except.ok ++ Except.error e :: post) = 1 := by
  have h1 : runCourses (pre.map Except.ok ++ Except.error e :: post) = (pre, some e) := by
    induction pre with
    | nil => rfl
    | cons a t ih => simp [runCourses, ih]
  refine ⟨h1, ?_⟩
  unfold runExitCode
  rw [h1]
  rfl

/-! ## Fetch pipeline: downloadFile and the per-course download loop
(src/src/index.ts:189-203 and 380-397). -/

/-- Characters whose escapes `decodeURI` leaves untouched (the URI reserved
set plus `#`). -/
def uriReservedHash (c : Char) : Bool :=
  c = ';' || c = '/' || c = '?' || c = ':' || c = '@' || c = '&' || c = '=' ||
    c = '+' || c = '$' || c = ',' || c = '#'

/-- Model of JS `decodeURI` (same conventions as `percentDecodeChars`): a
`%XX` escape of a reserved character is kept verbatim, every other escape is
decoded, and a malformed escape throws. -/
def jsDecodeURIChars : List Char → Option (List Char)
  | [] => some []
  | '%' :: h1 :: h2 :: rest =>
    match hexVal h1, hexVal h2 with
    | some a, some b =>
      if uriReservedHash (Char.ofNat (16 * a + b)) then
        (jsDecodeURIChars rest).map (fun t => '%' :: h1 :: h2 :: t)
      else (jsDecodeURIChars rest).map (fun t => Char.ofNat (16 * a + b) :: t)
    | _, _ => none
  | '%' :: _ => none
  | c :: rest => (jsDecodeURIChars rest).map (fun t => c :: t)

/-- JS `decodeURI(url)` on strings. -/
def jsDecodeURI (s : String) : Option String :=
  (jsDecodeURIChars s.data).map String.mk

inductive FetchResult
  | Skipped
  | Downloaded
  | Failed
deriving DecidableEq, Repr

/-- `fs.existsSync(localPath)` over the modelled file system, a list of
`(path, contents)` pairs. -/
def hasFile (fs : List (String × String)) (p : String) : Bool :=
  (fs.lookup p).isSome

/-- Model of `downloadFile(url)`: derive the local path (a throw inside
`localPathFromUrl` is a failure of this call), skip if the file exists,
otherwise issue one network request (`net`) and write the body on success.
The `Nat` counts network requests issued by this call. -/
def downloadFile (net : String → Option String)
    (fs : List (String × String)) (url : String) :
    FetchResult × List (String × String) × Nat :=
  match localPathFromUrl url with
  | none => (FetchResult.Failed, fs, 0)
  | some p =>
    if hasFile fs p then (FetchResult.Skipped, fs, 0)
    else
      match net url with
      | some body => (FetchResult.Downloaded, (p, body) :: fs, 1)
      | none => (FetchResult.Failed, fs, 1)

/-- One iteration of the download loop: `const decoded = decodeURI(url);
try { await downloadFile(decoded); } catch ...` — both throws are caught at
this granularity and recorded as a failure. -/
def fetchStep (net : String → Option String)
    (fs : List (String × String)) (url : String) :
    FetchResult × List (String × String) × Nat :=
  match jsDecodeURI url with
  | none => (FetchResult.Failed, fs, 0)
  | some d => downloadFile net fs d

/-- The local path a URL resolves to through the loop (decode, then derive). -/
def pathOfUrl (url : String) : Option String :=
  (jsDecodeURI url).bind localPathFromUrl

/-- The download loop over the usable URL list: per-URL results with their
network request counts, and the final file system. -/
def runFetch (net : String → Option String) (fs : List (String × String)) :
    List String → List (FetchResult × Nat) × List (String × String)
  | [] => ([], fs)
  | url :: rest =>
    match fetchStep net fs url with
    | (r, fs2, n) =>
      match runFetch net fs2 rest with
      | (rs, fs3) => ((r, n) :: rs, fs3)

theorem hasFile_cons {fs : List (String × String)} {p q b : String}
    (h : hasFile fs q = true) : hasFile ((p, b) :: fs) q = true := by
  unfold hasFile at h ⊢
  rw [List.lookup_cons]
  split <;> simp_all

theorem hasFile_cons_self (fs : List (String × String)) (p b : String) :
    hasFile ((p, b) :: fs) p = true := by
  unfold hasFile
  rw [List.lookup_cons]
  simp

theorem fetchStep_mono {net : String → Option String} {fs : List (String × String)}
    {url p : String} (h : hasFile fs p = true) :
    hasFile (fetchStep net fs url).2.1 p = true := by
  unfold fetchStep
  rcases hd : jsDecodeURI url with _ | d
  · exact h
  · simp only
    unfold downloadFile
    rcases hq : localPathFromUrl d with _ | q
    · exact h
    · simp only
      by_cases hqf : hasFile fs q
      · rw [if_pos hqf]
        exact h
      · rw [if_neg hqf]
        rcases net d with _ | body
        · exact h
        · exact hasFile_cons h

theorem runFetch_mono {net : String → Option String} {urls : List String}
    {fs : List (String × String)} {p : String} (h : hasFile fs p = true) :
    hasFile (runFetch net fs urls).2 p = true := by
  induction urls generalizing fs with
  | nil => exact h
  | cons url rest ih =>
    rw [runFetch]
    rcases hstep : fetchStep net fs url with ⟨r, fs2, n⟩
    simp only [hstep]
    rcases hrest : runFetch net fs2 rest with ⟨rs, fs3⟩
    simp only [hrest]
    have h2 : hasFile fs2 p = true := by
      have h3 := @fetchStep_mono net fs url p h
      rw [hstep] at h3
      exact h3
    have h4 := ih h2
    rw [hrest] at h4
    exact h4

theorem runFetch_length {net : String → Option String} {urls : List String}
    {fs : List (String × String)} :
    ((runFetch net fs urls).1).length = urls.length := by
  induction urls generalizing fs with
  | nil => rfl
  | cons url rest ih =>
    rw [runFetch]
    rcases hstep : fetchStep net fs url with ⟨r, fs2, n⟩
    simp only [hstep]
    rcases hrest : runFetch net fs2 rest with ⟨rs, fs3⟩
    simp only [hrest]
    have h2 := @ih fs2
    rw [hrest] at h2
    simpa using h2

/-- A non-failed step leaves the URL's derived path present in the file
system it returns. -/
theorem fetchStep_path {net : String → Option String} {fs : List (String × String)}
    {url : String} {r : FetchResult} {fs2 : List (String × String)} {n : Nat}
    (h : fetchStep net fs url = (r, fs2, n)) (hr : r ≠ FetchResult.Failed) :
    ∃ p, pathOfUrl url = some p ∧ hasFile fs2 p = true := by
  unfold fetchStep at h
  unfold pathOfUrl
  rcases hd : jsDecodeURI url with _ | d
  · simp only [hd] at h
    injection h with h1 h23
    exact absurd h1.symm hr
  · simp only [hd] at h
    simp only [hd, Option.some_bind]
    unfold downloadFile at h
    rcases hp : localPathFromUrl d with _ | p
    · simp only [hp] at h
      injection h with h1 h23
      exact absurd h1.symm hr
    · simp only [hp] at h
      by_cases hq : hasFile fs p
      · rw [if_pos hq] at h
        injection h with h1 h23
        injection h23 with h2 h3
        exact ⟨p, rfl, h2 ▸ hq⟩
      · rw [if_neg hq] at h
        rcases hnet : net d with _ | body
        · simp only [hnet] at h
          injection h with h1 h23
          exact absurd h1.symm hr
        · simp only [hnet] at h
          injection h with h1 h23
          injection h23 with h2 h3
          exact ⟨p, rfl, h2 ▸ hasFile_cons_self fs p body⟩

/-- A step whose URL's derived path is already present is a skip with no
network request and no change to the file system. -/
theorem fetchStep_skip {net : String → Option String} {fs : List (String × String)}
    {url p : String} (hp : pathOfUrl url = some p) (h : hasFile fs p = true) :
    fetchStep net fs url = (FetchResult.Skipped, fs, 0) := by
  unfold pathOfUrl at hp
  unfold fetchStep
  rcases hd : jsDecodeURI url with _ | d
  · rw [hd] at hp
    simp at hp
  · rw [hd] at hp
    simp only [Option.some_bind] at hp
    simp only [hd]
    unfold downloadFile
    simp only [hp]
    rw [if_pos h]

/-- Every non-failed result leaves its URL's path in the final file system. -/
theorem runFetch_nonfailed_path {net : String → Option String} {urls : List String}
    {fs : List (String × String)} :
    ∀ (i : Nat) (url : String) (r : FetchResult) (n : Nat),
      urls[i]? = some url → ((runFetch net fs urls).1)[i]? = some (r, n) →
      r ≠ FetchResult.Failed →
      ∃ p, pathOfUrl url = some p ∧ hasFile (runFetch net fs urls).2 p = true := by
  induction urls generalizing fs with
  | nil =>
    intro i url r n hu
    simp at hu
  | cons u0 rest ih =>
    intro i url r n hu hres hr
    rw [runFetch] at hres ⊢
    rcases hstep : fetchStep net fs u0 with ⟨r0, fs2, n0⟩
    simp only [hstep] at hres ⊢
    rcases hrest : runFetch net fs2 rest with ⟨rs, fs3⟩
    simp only [hrest] at hres ⊢
    cases i with
    | zero =>
      simp only [List.getElem?_cons_zero, Option.some.injEq] at hu hres
      injection hres with hr0 hn0
      subst hr0
      subst hu
      rcases fetchStep_path hstep hr with ⟨p, hp, hf2⟩
      refine ⟨p, hp, ?_⟩
      have h5 := @runFetch_mono net rest fs2 p hf2
      rw [hrest] at h5
      exact h5
    | succ j =>
      simp only [List.getElem?_cons_succ] at hu hres
      have h6 := ih j url r n hu (by rw [hrest]; exact hres) hr
      rw [hrest] at h6
      exact h6

/-- A URL whose derived path is already present yields a skip with no network
request, wherever it sits in the list. -/
theorem runFetch_skip_at {net : String → Option String} {urls : List String}
    {fs : List (String × String)} :
    ∀ (i : Nat) (url p : String),
      urls[i]? = some url → pathOfUrl url = some p → hasFile fs p = true →
      ((runFetch net fs urls).1)[i]? = some (FetchResult.Skipped, 0) := by
  induction urls generalizing fs with
  | nil =>
    intro i url p hu
    simp at hu
  | cons u0 rest ih =>
    intro i url p hu hp hf
    rw [runFetch]
    rcases hstep : fetchStep net fs u0 with ⟨r0, fs2, n0⟩
    simp only [hstep]
    rcases hrest : runFetch net fs2 rest with ⟨rs, fs3⟩
    simp only [hrest]
    cases i with
    | zero =>
      simp only [List.getElem?_cons_zero, Option.some.injEq] at hu
      subst hu
      rw [fetchStep_skip hp hf] at hstep
      injection hstep with h1 h23
      injection h23 with h2 h3
      subst h1
      subst h3
      simp
    | succ j =>
      simp only [List.getElem?_cons_succ] at hu ⊢
      have hf2 : hasFile fs2 p = true := by
        have h7 := @fetchStep_mono net fs u0 p hf
        rw [hstep] at h7
        exact h7
      have h8 := ih j url p hu hp hf2
      rw [hrest] at h8
      exact h8

/-- When every URL's path is already on disk the whole run is skips, makes no
network request, and leaves the file system untouched. -/
theorem runFetch_all_present {net : String → Option String} {urls : List String}
    {fs : List (String × String)}
    (h : ∀ url ∈ urls, ∃ p, pathOfUrl url = some p ∧ hasFile fs p = true) :
    runFetch net fs urls = (urls.map (fun _ => (FetchResult.Skipped, 0)), fs) := by
  induction urls with
  | nil => rfl
  | cons u0 rest ih =>
    rcases h u0 (List.mem_cons_self _ _) with ⟨p, hp, hf⟩
    rw [runFetch, fetchStep_skip hp hf]
    simp only [ih (fun url hu => h url (List.mem_cons_of_mem _ hu)), List.map_cons]

/-- C4: the fetch pipeline is idempotent over the file system.  (a) When a
file already exists at the derived local path, `downloadFile` returns
`Skipped`, issues no network request, and leaves the file system unchanged;
(b) any URL the first run downloaded yields `Skipped` with zero network
requests at the same position of a second run over the final file system;
(c) if the first run had no failures, the second run is `Skipped` everywhere
with zero network requests and does not change the file system. -/
theorem c4_fetch_idempotent (net : String → Option String)
    (fs : List (String × String)) (urls : List String) :
    (∀ url p, localPathFromUrl url = some p → hasFile fs p = true →
      downloadFile net fs url = (FetchResult.Skipped, fs, 0)) ∧
    (∀ (i : Nat) (url : String) (r : FetchResult) (n : Nat), urls[i]? = some url →
      ((runFetch net fs urls).1)[i]? = some (r, n) → r = FetchResult.Downloaded →
      ((runFetch net (runFetch net fs urls).2 urls).1)[i]? =
        some (FetchResult.Skipped, 0)) ∧
    ((∀ rn ∈ (runFetch net fs urls).1, rn.1 ≠ FetchResult.Failed) →
      runFetch net (runFetch net fs urls).2 urls =
        (urls.map (fun _ => (FetchResult.Skipped, 0)), (runFetch net fs urls).2)) := by
  refine ⟨?_, ?_, ?_⟩
  · intro url p hp hf
    unfold downloadFile
    simp only [hp]
    rw [if_pos hf]
  · intro i url r n hu hres hr
    rcases runFetch_nonfailed_path i url r n hu hres (by simp [hr]) with ⟨p, hp, hf⟩
    exact runFetch_skip_at i url p hu hp hf
  · intro hall
    refine runFetch_all_present ?_
    intro url hu
    rcases List.getElem_of_mem hu with ⟨i, hi, hget⟩
    have hu2 : urls[i]? = some url := by
      rw [List.getElem?_eq_getElem hi, hget]
    have hi2 : i < ((runFetch net fs urls).1).length := by
      rw [runFetch_length]
      exact hi
    rcases hres : ((runFetch net fs urls).1)[i] with ⟨r, n⟩
    have hres2 : ((runFetch net fs urls).1)[i]? = some (r, n) := by
      rw [List.getElem?_eq_getElem hi2, hres]
    have hmem : (r, n) ∈ (runFetch net fs urls).1 := by
      rw [← hres]
      exact List.getElem_mem hi2
    exact runFetch_nonfailed_path i url r n hu2 hres2 (hall (r, n) hmem)

/-- Witness for C4 at a one-URL list: the first run downloads, the second
skips with no network request. -/
theorem c4_fetch_idempotent_witness :
    runFetch (fun _ => some "body") []
        ["https://www.math.cuhk.edu.hk/course_builder/2223/MATH1010/notes.pdf"] =
      ([(FetchResult.Downloaded, 1)],
        [("/dl/2223/MATH1010/notes.pdf", "body")]) ∧
    runFetch (fun _ => some "body") [("/dl/2223/MATH1010/notes.pdf", "body")]
        ["https://www.math.cuhk.edu.hk/course_builder/2223/MATH1010/notes.pdf"] =
      ([(FetchResult.Skipped, 0)], [("/dl/2223/MATH1010/notes.pdf", "body")]) :=
  ⟨by rfl,
   by
    have h := (c4_fetch_idempotent (fun _ => some "body") []
        ["https://www.math.cuhk.edu.hk/course_builder/2223/MATH1010/notes.pdf"]).2.2
      (by decide)
    simpa using h⟩

/-! ## The year-fix regex

`YEAR_FIX_REGEX_SOURCE = '(\\/course_builder\\/)(?:_?\\d{4})(\\/)'`, compiled
with the `i` flag and used (non-globally) as
`pathname.replace(yearExp, (m, p1, p2) => p1 + prefix + digits + p2)`.
We model `String.prototype.replace` with a regex literally: scan for the first
position where the pattern matches and splice in the replacement, where `p1`
is the matched anchor text (16 characters, case preserved) and `p2` is `/`. -/

/-- Lowercased anchor `/course_builder/` as characters. -/
def anchorLC : List Char := "/course_builder/".data

/-- Consume a case-insensitive literal pattern (already lowercase), returning
the rest of the input. -/
def stripCI : List Char → List Char → Option (List Char)
  | [], cs => some cs
  | _ :: _, [] => none
  | p :: ps, c :: cs => if lcChar c = p then stripCI ps cs else none

/-- Consume `\d{4}\/`, returning the rest of the input. -/
def stripDigits4Slash (cs : List Char) : Option (List Char) :=
  match cs with
  | c1 :: c2 :: c3 :: c4 :: '/' :: rest =>
    if c1.isDigit && c2.isDigit && c3.isDigit && c4.isDigit then some rest
    else none
  | _ => none

/-- Consume `_?\d{4}\/` (the optional `_` is greedy; backtracking to the empty
alternative cannot succeed because `_` is not a digit). -/
def stripYear (cs : List Char) : Option (List Char) :=
  if cs.head? = some '_' then stripDigits4Slash cs.tail
  else stripDigits4Slash cs

/-- Full pattern match at the current position, returning the input after the
match (the trailing `/` included in the match). -/
def yearMatchAt (cs : List Char) : Option (List Char) :=
  match stripCI anchorLC cs with
  | none => none
  | some r1 => stripYear r1

/-- First-match replace: at the first matching position, keep the matched
anchor text (`p1`, 16 characters), splice in the replacement digits and the
captured `/` (`p2`), drop the consumed year segment, and stop. -/
def yearReplaceChars (repl : List Char) : List Char → List Char
  | [] => []
  | c :: cs =>
    match yearMatchAt (c :: cs) with
    | some rest => (c :: cs).take 16 ++ repl ++ '/' :: rest
    | none => c :: yearReplaceChars repl cs

/-- `pathname.replace(yearExp, ...)` with replacement `prefix + digits`. -/
def jsYearReplace (pre digits : String) (s : String) : String :=
  String.mk (yearReplaceChars (pre.data ++ digits.data) s.data)

/-- Shape `_?\d{4}` of a whole segment (the year segments the regex rewrites
and the shapes the replacement is assumed to keep, per the claims). -/
def isFourDigits : List Char → Bool
  | [c1, c2, c3, c4] => c1.isDigit && c2.isDigit && c3.isDigit && c4.isDigit
  | _ => false

def isYearSeg (cs : List Char) : Bool :=
  if cs.head? = some '_' then isFourDigits cs.tail else isFourDigits cs

/-- Lowercased anchor segment (no slashes). -/
def cbSeg : List Char := "course_builder".data

/-- Segment-level description of the rewrite: walk the segments; at the first
case-insensitive `course_builder` segment that is immediately followed by a
year-shaped segment which itself is followed by a further `/` (i.e. it is not
the last segment), replace that year segment with the replacement; leave
everything else unchanged. -/
def yearFixSegs (repl : List Char) : List (List Char) → List (List Char)
  | s0 :: s1 :: s2 :: rest =>
    if lcList s0 = cbSeg ∧ isYearSeg s1 = true then s0 :: repl :: s2 :: rest
    else s0 :: yearFixSegs repl (s1 :: s2 :: rest)
  | other => other

/-- Join segments with `/` (no leading slash). -/
def interJoin : List (List Char) → List Char
  | [] => []
  | [s] => s
  | s :: r :: rest => s ++ '/' :: interJoin (r :: rest)

/-- A URL pathname: leading slash, then the segments joined with `/`. -/
def joinP (segs : List (List Char)) : List Char := '/' :: interJoin segs

theorem lcChar_slash_eq : lcChar '/' = '/' := by decide

theorem isDigit_slash_eq : ('/' : Char).isDigit = false := by decide

theorem stripCI_nonslash_pat {pat : List Char} (hpat : '/' ∉ pat) :
    ∀ {s t : List Char}, '/' ∉ s →
      stripCI (pat ++ ['/']) (s ++ '/' :: t) =
        if lcList s = pat then some t else none := by
  induction pat with
  | nil =>
    intro s t hs
    cases s with
    | nil => simp [stripCI, lcList, lcChar_slash_eq]
    | cons c cs =>
      have hc : c ≠ '/' := fun hc => hs (hc ▸ List.mem_cons_self _ _)
      have hlc : lcChar c ≠ '/' := fun hlc => hc (lcChar_eq_slash hlc)
      simp [stripCI, hlc, lcList]
  | cons p ps ih =>
    intro s t hs
    have hp : p ≠ '/' := fun hc => hpat (hc ▸ List.mem_cons_self _ _)
    have hps : '/' ∉ ps := fun hc => hpat (List.mem_cons_of_mem _ hc)
    cases s with
    | nil =>
      simp [stripCI, lcChar_slash_eq, Ne.symm hp, lcList]
    | cons c cs =>
      have hcs : '/' ∉ cs := fun hc => hs (List.mem_cons_of_mem _ hc)
      by_cases hlc : lcChar c = p
      · have step : stripCI ((p :: ps) ++ ['/']) ((c :: cs) ++ '/' :: t) =
            stripCI (ps ++ ['/']) (cs ++ '/' :: t) := by
          simp [stripCI, hlc]
        rw [step, ih hps hcs]
        simp [lcList, hlc]
      · simp [stripCI, hlc, lcList]

theorem stripCI_nonslash_last {pat : List Char} (hpat : '/' ∉ pat) :
    ∀ {s : List Char}, '/' ∉ s → stripCI (pat ++ ['/']) s = none := by
  induction pat with
  | nil =>
    intro s hs
    cases s with
    | nil => rfl
    | cons c cs =>
      have hc : c ≠ '/' := fun hc => hs (hc ▸ List.mem_cons_self _ _)
      have hlc : lcChar c ≠ '/' := fun hlc => hc (lcChar_eq_slash hlc)
      simp [stripCI, hlc]
  | cons p ps ih =>
    intro s hs
    have hps : '/' ∉ ps := fun hc => hpat (List.mem_cons_of_mem _ hc)
    cases s with
    | nil => rfl
    | cons c cs =>
      have hcs : '/' ∉ cs := fun hc => hs (List.mem_cons_of_mem _ hc)
      by_cases hlc : lcChar c = p
      · have step : stripCI ((p :: ps) ++ ['/']) (c :: cs) =
            stripCI (ps ++ ['/']) cs := by
          simp [stripCI, hlc]
        rw [step]
        exact ih hps hcs
      · simp [stripCI, hlc]

theorem stripDigits4Slash_seg {s t : List Char} (hs : '/' ∉ s) :
    stripDigits4Slash (s ++ '/' :: t) =
      if isFourDigits s = true then some t else none := by
  rcases s with _ | ⟨c1, s⟩
  · simp only [List.nil_append]
    rw [stripDigits4Slash.eq_def]
    split
    · rename_i heq
      injection heq with e1 e2
      subst e1
      simp [isDigit_slash_eq, isFourDigits]
    · simp [isFourDigits]
  rcases s with _ | ⟨c2, s⟩
  · simp only [List.cons_append, List.nil_append]
    rw [stripDigits4Slash.eq_def]
    split
    · rename_i heq
      injection heq with e1 e2
      injection e2 with e2 e3
      subst e2
      simp [isDigit_slash_eq, isFourDigits]
    · simp [isFourDigits]
  rcases s with _ | ⟨c3, s⟩
  · simp only [List.cons_append, List.nil_append]
    rw [stripDigits4Slash.eq_def]
    split
    · rename_i heq
      injection heq with e1 e2
      injection e2 with e2 e3
      injection e3 with e3 e4
      subst e3
      simp [isDigit_slash_eq, isFourDigits]
    · simp [isFourDigits]
  rcases s with _ | ⟨c4, s⟩
  · simp only [List.cons_append, List.nil_append]
    rw [stripDigits4Slash.eq_def]
    split
    · rename_i heq
      injection heq with e1 e2
      injection e2 with e2 e3
      injection e3 with e3 e4
      injection e4 with e4 e5
      subst e4
      simp [isDigit_slash_eq, isFourDigits]
    · simp [isFourDigits]
  rcases s with _ | ⟨c5, s⟩
  · simp [stripDigits4Slash, isFourDigits]
  · have h5 : c5 ≠ '/' := fun hc => hs (by simp [hc])
    simp only [List.cons_append]
    rw [stripDigits4Slash.eq_def]
    split
    · rename_i heq
      injection heq with e1 e2
      injection e2 with e2 e3
      injection e3 with e3 e4
      injection e4 with e4 e5
      injection e5 with e5 e6
      exact absurd e5 h5
    · simp [isFourDigits]

theorem stripDigits4Slash_last {s : List Char} (hs : '/' ∉ s) :
    stripDigits4Slash s = none := by
  rw [stripDigits4Slash.eq_def]
  split
  · exfalso
    apply hs
    simp
  · rfl

theorem stripYear_underscore (cs : List Char) :
    stripYear ('_' :: cs) = stripDigits4Slash cs := by
  unfold stripYear
  simp

theorem stripYear_not_underscore {c : Char} (hc : c ≠ '_') (cs : List Char) :
    stripYear (c :: cs) = stripDigits4Slash (c :: cs) := by
  unfold stripYear
  rw [if_neg]
  simp [hc]

theorem stripD4S_slash_head (t : List Char) :
    stripDigits4Slash ('/' :: t) = none := by
  rw [stripDigits4Slash.eq_def]
  split
  · rename_i heq
    injection heq with e1 e2
    subst e1
    simp [isDigit_slash_eq]
  · rfl

theorem isYearSeg_nil : isYearSeg [] = false := by decide

theorem isYearSeg_underscore (cs : List Char) :
    isYearSeg ('_' :: cs) = isFourDigits cs := by
  unfold isYearSeg
  simp

theorem isYearSeg_not_underscore {c : Char} (hc : c ≠ '_') (cs : List Char) :
    isYearSeg (c :: cs) = isFourDigits (c :: cs) := by
  unfold isYearSeg
  rw [if_neg]
  simp [hc]

theorem stripYear_seg {s t : List Char} (hs : '/' ∉ s) :
    stripYear (s ++ '/' :: t) = if isYearSeg s = true then some t else none := by
  cases s with
  | nil =>
    rw [List.nil_append, stripYear_not_underscore (by decide), stripD4S_slash_head,
      isYearSeg_nil]
    simp
  | cons c cs =>
    have hcs : '/' ∉ cs := fun hc => hs (List.mem_cons_of_mem _ hc)
    by_cases hc : c = '_'
    · subst hc
      rw [List.cons_append, stripYear_underscore, stripDigits4Slash_seg hcs,
        isYearSeg_underscore]
    · rw [List.cons_append, stripYear_not_underscore hc, ← List.cons_append,
        stripDigits4Slash_seg hs, isYearSeg_not_underscore hc]

theorem stripYear_last {s : List Char} (hs : '/' ∉ s) : stripYear s = none := by
  unfold stripYear
  split
  · refine stripDigits4Slash_last ?_
    intro hc
    exact hs (List.mem_of_mem_tail hc)
  · exact stripDigits4Slash_last hs

theorem yearMatchAt_nonslash {c : Char} (hc : c ≠ '/') (cs : List Char) :
    yearMatchAt (c :: cs) = none := by
  unfold yearMatchAt
  have ha : anchorLC = '/' :: (cbSeg ++ ['/']) := by decide
  rw [ha]
  have hlc : lcChar c ≠ '/' := fun h => hc (lcChar_eq_slash h)
  simp [stripCI, hlc]

/-- The scan never starts a match inside a slash-free block. -/
theorem yearReplace_through {repl : List Char} {s : List Char} (hs : '/' ∉ s)
    (rest : List Char) :
    yearReplaceChars repl (s ++ rest) = s ++ yearReplaceChars repl rest := by
  induction s with
  | nil => simp
  | cons c cs ih =>
    have hc : c ≠ '/' := fun h => hs (h ▸ List.mem_cons_self _ _)
    have hcs : '/' ∉ cs := fun h => hs (List.mem_cons_of_mem _ h)
    rw [List.cons_append, yearReplaceChars]
    simp only [yearMatchAt_nonslash hc]
    rw [ih hcs, List.cons_append]

theorem yearMatchAt_head {s0 : List Char} (hs0 : '/' ∉ s0) (tail : List Char) :
    yearMatchAt ('/' :: (s0 ++ '/' :: tail)) =
      if lcList s0 = cbSeg then stripYear tail else none := by
  unfold yearMatchAt
  have ha : anchorLC = '/' :: (cbSeg ++ ['/']) := by decide
  rw [ha]
  have hstep : stripCI ('/' :: (cbSeg ++ ['/'])) ('/' :: (s0 ++ '/' :: tail)) =
      stripCI (cbSeg ++ ['/']) (s0 ++ '/' :: tail) := by
    simp [stripCI, lcChar_slash_eq]
  rw [hstep, stripCI_nonslash_pat (by decide) hs0]
  by_cases h : lcList s0 = cbSeg
  · simp [h]
  · simp [h]

theorem yearMatchAt_head_last {s0 : List Char} (hs0 : '/' ∉ s0) :
    yearMatchAt ('/' :: s0) = none := by
  unfold yearMatchAt
  have ha : anchorLC = '/' :: (cbSeg ++ ['/']) := by decide
  rw [ha]
  have hstep : stripCI ('/' :: (cbSeg ++ ['/'])) ('/' :: s0) =
      stripCI (cbSeg ++ ['/']) s0 := by
    simp [stripCI, lcChar_slash_eq]
  rw [hstep, stripCI_nonslash_last (by decide) hs0]

theorem yearFixSegs_ne_nil {repl : List Char} {l : List (List Char)}
    (h : l ≠ []) : yearFixSegs repl l ≠ [] := by
  rw [yearFixSegs.eq_def]
  split
  · split <;> simp
  · exact h

theorem interJoin_cons {s : List Char} {T : List (List Char)} (h : T ≠ []) :
    interJoin (s :: T) = s ++ '/' :: interJoin T := by
  cases T with
  | nil => exact absurd rfl h
  | cons r rest => rw [interJoin]

/-- Transfer: the string-level first-match regex replace on the joined
pathname equals the segment-level rewrite. -/
theorem yearReplace_transfer {repl : List Char} :
    ∀ segs : List (List Char), (∀ s ∈ segs, '/' ∉ s) →
      yearReplaceChars repl (joinP segs) = joinP (yearFixSegs repl segs) := by
  intro segs
  induction segs with
  | nil =>
    intro hall
    have h0 : yearFixSegs repl ([] : List (List Char)) = [] := rfl
    rw [h0]
    unfold joinP
    rw [interJoin, yearReplaceChars]
    simp only [@yearMatchAt_head_last [] (by simp)]
    rfl
  | cons s0 rest ih =>
    intro hall
    have hs0 : '/' ∉ s0 := hall s0 (List.mem_cons_self _ _)
    have hrest : ∀ s ∈ rest, '/' ∉ s := fun s hs => hall s (List.mem_cons_of_mem _ hs)
    cases rest with
    | nil =>
      rw [yearFixSegs.eq_def]
      simp only
      unfold joinP
      rw [interJoin, yearReplaceChars]
      simp only [yearMatchAt_head_last hs0]
      rw [show yearReplaceChars repl s0 = s0 from by
        have h3 := @yearReplace_through repl s0 hs0 []
        simpa [yearReplaceChars] using h3]
    | cons s1 rest2 =>
      have hs1 : '/' ∉ s1 := hrest s1 (List.mem_cons_self _ _)
      cases rest2 with
      | nil =>
        rw [yearFixSegs.eq_def]
        simp only
        unfold joinP
        rw [interJoin, interJoin, yearReplaceChars]
        simp only [yearMatchAt_head hs0 s1, stripYear_last hs1]
        have hnone : (if lcList s0 = cbSeg then (none : Option (List Char))
            else none) = none := by
          split <;> rfl
        simp only [hnone]
        rw [yearReplace_through hs0]
        rw [yearReplaceChars]
        simp only [yearMatchAt_head_last hs1]
        rw [show yearReplaceChars repl s1 = s1 from by
          have h3 := @yearReplace_through repl s1 hs1 []
          simpa [yearReplaceChars] using h3]
      | cons s2 rest3 =>
        have htail : interJoin (s1 :: s2 :: rest3) = s1 ++ '/' :: interJoin (s2 :: rest3) := by
          rw [interJoin]
        have hTne : yearFixSegs repl (s1 :: s2 :: rest3) ≠ [] :=
          yearFixSegs_ne_nil (by simp)
        unfold joinP
        rw [interJoin_cons (by simp), htail, yearReplaceChars]
        simp only [yearMatchAt_head hs0 (s1 ++ '/' :: interJoin (s2 :: rest3)),
          stripYear_seg hs1]
        by_cases hcb : lcList s0 = cbSeg
        · by_cases hy : isYearSeg s1 = true
          · simp only [hcb, if_pos, if_true, hy]
            have hlen : s0.length = 14 := by
              have := congrArg List.length hcb
              simpa [lcList] using this
            have htake : ('/' :: (s0 ++ '/' :: (s1 ++ '/' :: interJoin (s2 :: rest3)))).take 16 =
                '/' :: s0 ++ ['/'] := by
              have hsplit : ('/' :: (s0 ++ '/' :: (s1 ++ '/' :: interJoin (s2 :: rest3)))) =
                  ('/' :: s0 ++ ['/']) ++ (s1 ++ '/' :: interJoin (s2 :: rest3)) := by
                simp
              rw [hsplit]
              have hlen16 : ('/' :: s0 ++ ['/']).length = 16 := by
                simp [hlen]
              rw [← hlen16, List.take_left]
            rw [htake]
            rw [yearFixSegs.eq_def]
            simp only [hcb, hy, and_self, if_true]
            rw [interJoin, interJoin]
            simp
          · have hcond : (if lcList s0 = cbSeg then
                (if isYearSeg s1 = true then
                  some (interJoin (s2 :: rest3)) else none) else none) = none := by
              rw [if_pos hcb, if_neg hy]
            simp only [hcond]
            rw [yearReplace_through hs0]
            have hih := ih hrest
            unfold joinP at hih
            rw [htail] at hih
            rw [hih]
            have hcond2 : ¬(lcList s0 = cbSeg ∧ isYearSeg s1 = true) := by
              intro hc
              exact hy hc.2
            have hfix : yearFixSegs repl (s0 :: s1 :: s2 :: rest3) =
                s0 :: yearFixSegs repl (s1 :: s2 :: rest3) := by
              show (if lcList s0 = cbSeg ∧ isYearSeg s1 = true
                  then s0 :: repl :: s2 :: rest3
                  else s0 :: yearFixSegs repl (s1 :: s2 :: rest3)) =
                s0 :: yearFixSegs repl (s1 :: s2 :: rest3)
              rw [if_neg hcond2]
            rw [hfix, interJoin_cons hTne]
        · have hcond : (if lcList s0 = cbSeg then
              (if isYearSeg s1 = true then
                some (interJoin (s2 :: rest3)) else none) else none) = none := by
            rw [if_neg hcb]
          simp only [hcond]
          rw [yearReplace_through hs0]
          have hih := ih hrest
          unfold joinP at hih
          rw [htail] at hih
          rw [hih]
          have hcond2 : ¬(lcList s0 = cbSeg ∧ isYearSeg s1 = true) := by
            intro hc
            exact hcb hc.1
          have hfix : yearFixSegs repl (s0 :: s1 :: s2 :: rest3) =
              s0 :: yearFixSegs repl (s1 :: s2 :: rest3) := by
            show (if lcList s0 = cbSeg ∧ isYearSeg s1 = true
                then s0 :: repl :: s2 :: rest3
                else s0 :: yearFixSegs repl (s1 :: s2 :: rest3)) =
              s0 :: yearFixSegs repl (s1 :: s2 :: rest3)
            rw [if_neg hcond2]
          rw [hfix, interJoin_cons hTne]

/-! ## URL records, the pathname setter, and normalizeUrl -/

/-- A parsed URL as the page script sees it (`new URL(...)`).  Serialisation
of the components matches the WHATWG getters the code uses: `href`, `origin`,
`hostname`, `pathname`, `search` (with its `?`), `hash` (with its `#`). -/
structure JsUrl where
  scheme : String
  hostname : String
  port : String
  pathname : String
  search : String
  hash : String
deriving DecidableEq, Repr

def JsUrl.portPart (u : JsUrl) : String :=
  if u.port = "" then "" else ":" ++ u.port

def JsUrl.origin (u : JsUrl) : String :=
  u.scheme ++ "://" ++ u.hostname ++ u.portPart

def JsUrl.href (u : JsUrl) : String :=
  u.origin ++ u.pathname ++ u.search ++ u.hash

/-- The path start state consumes one leading `/` (or `\` for special
schemes). -/
def dropLeadSlash : List Char → List Char
  | '/' :: t => t
  | '\\' :: t => t
  | t => t

/-- The WHATWG `pathname` setter: empty the path, parse the assigned string
with the path state machine, re-serialise. -/
def setPathString (s : String) : String :=
  String.mk (joinP (parsePathSegs (dropLeadSlash s.data)))

/-- The fields of `InjectionConfig` that the pure `normalizeUrl` reads.
`yearPre` and `staffPre` model the source's `yearPrefix` and `staffPrefix`
fields; `yearExpSource` is the fixed `YEAR_FIX_REGEX_SOURCE` regex, baked into
`jsYearReplace`. -/
structure InjectionConfig where
  applyYearRewrite : Bool
  yearPre : String
  courseYearDigits : String
  staffPre : String
  forceHostReplacement : Bool
  hostNeedingFix : String
  hostReplacement : String
deriving DecidableEq, Repr

/-- Host-fix step of `normalizeUrl`: replace the hostname and clear the port
when the host-fix rule applies. -/
def hostFixStep (cfg : InjectionConfig) (u : JsUrl) : JsUrl :=
  if cfg.forceHostReplacement = true ∧ u.hostname = cfg.hostNeedingFix then
    { u with hostname := cfg.hostReplacement, port := "" }
  else u

/-- Year-rewrite step of `normalizeUrl`: `target.pathname =
target.pathname.replace(yearExp, ...)`; the assignment goes through the
pathname setter. -/
def yearFixStep (cfg : InjectionConfig) (u : JsUrl) : JsUrl :=
  if cfg.applyYearRewrite = true then
    { u with pathname :=
        setPathString (jsYearReplace cfg.yearPre cfg.courseYearDigits u.pathname) }
  else u

/-- `normalizeUrl` (src/src/index.ts:282-304) on an already-resolved URL:
host fix first, then the year rewrite. -/
def normalizeUrl (cfg : InjectionConfig) (u : JsUrl) : JsUrl :=
  yearFixStep cfg (hostFixStep cfg u)

theorem parsePathAux_consume {s : List Char} (h1 : '/' ∉ s) (h2 : '\\' ∉ s) :
    ∀ (t buf : List Char) (path : List (List Char)),
      parsePathAux (s ++ t) buf path = parsePathAux t (buf ++ s) path := by
  induction s with
  | nil =>
    intro t buf path
    simp
  | cons c cs ih =>
    intro t buf path
    have hc1 : c ≠ '/' := fun h => h1 (h ▸ List.mem_cons_self _ _)
    have hc2 : c ≠ '\\' := fun h => h2 (h ▸ List.mem_cons_self _ _)
    have hcs1 : '/' ∉ cs := fun h => h1 (List.mem_cons_of_mem _ h)
    have hcs2 : '\\' ∉ cs := fun h => h2 (List.mem_cons_of_mem _ h)
    rw [List.cons_append, parsePathAux, if_neg (by simp [hc1, hc2])]
    rw [ih hcs1 hcs2]
    simp

theorem flushSeg_of_goodSeg {s : List Char} (h : goodSeg s) (atEnd : Bool)
    (path : List (List Char)) : flushSeg s atEnd path = path ++ [s] := by
  unfold flushSeg
  simp [h.2.2.1, h.2.2.2]

/-- Re-parsing a slash-joined list of good segments gives the segments back. -/
theorem parsePathAux_interJoin {segs : List (List Char)} (hne : segs ≠ [])
    (hgood : ∀ s ∈ segs, goodSeg s) :
    ∀ path, parsePathAux (interJoin segs) [] path = path ++ segs := by
  induction segs with
  | nil => exact absurd rfl hne
  | cons s rest ih =>
    intro path
    have hgs := hgood s (List.mem_cons_self _ _)
    cases rest with
    | nil =>
      rw [interJoin]
      have hcons := parsePathAux_consume hgs.1 hgs.2.1 [] [] path
      simp only [List.append_nil, List.nil_append] at hcons
      rw [hcons, parsePathAux, flushSeg_of_goodSeg hgs]
    | cons r rest2 =>
      rw [interJoin_cons (by simp)]
      have hcons := parsePathAux_consume hgs.1 hgs.2.1
        ('/' :: interJoin (r :: rest2)) [] path
      simp only [List.nil_append] at hcons
      rw [hcons, parsePathAux, if_pos (Or.inl rfl), flushSeg_of_goodSeg hgs]
      rw [ih (by simp) (fun x hx => hgood x (List.mem_cons_of_mem _ hx))]
      simp

theorem parsePathSegs_interJoin {segs : List (List Char)} (hne : segs ≠ [])
    (hgood : ∀ s ∈ segs, goodSeg s) :
    parsePathSegs (interJoin segs) = segs := by
  unfold parsePathSegs
  have h := parsePathAux_interJoin hne hgood []
  simpa using h

/-- The pathname setter is the identity on its own output. -/
theorem setPathString_idem (s : String) :
    setPathString (setPathString s) = setPathString s := by
  unfold setPathString
  have hd : dropLeadSlash (String.mk (joinP (parsePathSegs (dropLeadSlash s.data)))).data =
      interJoin (parsePathSegs (dropLeadSlash s.data)) := by
    simp [joinP, dropLeadSlash]
  rw [hd]
  rw [parsePathSegs_interJoin
    (show parsePathSegs (dropLeadSlash s.data) ≠ [] from parsePathAux_ne_nil)
    parsePathSegs_good]

theorem lcChar_eq_dot {c : Char} (h : lcChar c = '.') : c = '.' := by
  unfold lcChar at h
  split at h <;> first
  | exact h
  | exact absurd h (by decide)

theorem lcChar_eq_pct {c : Char} (h : lcChar c = '%') : c = '%' := by
  unfold lcChar at h
  split at h <;> first
  | exact h
  | exact absurd h (by decide)

theorem isFourDigits_chars {cs : List Char} (h : isFourDigits cs = true) :
    ∀ c ∈ cs, c.isDigit = true := by
  unfold isFourDigits at h
  split at h
  · rename_i c1 c2 c3 c4
    simp only [Bool.and_eq_true] at h
    intro c hc
    simp only [List.mem_cons, List.not_mem_nil, or_false] at hc
    rcases hc with hc | hc | hc | hc
    · exact hc ▸ h.1.1.1
    · exact hc ▸ h.1.1.2
    · exact hc ▸ h.1.2
    · exact hc ▸ h.2
  · simp at h

theorem yearSeg_chars {y : List Char} (h : isYearSeg y = true) :
    ∀ c ∈ y, c = '_' ∨ c.isDigit = true := by
  unfold isYearSeg at h
  intro c hc
  split at h
  · rename_i hhead
    cases y with
    | nil => simp at hc
    | cons c0 cs =>
      simp only [List.head?_cons, Option.some.injEq] at hhead
      simp only [List.tail_cons] at h
      rcases List.mem_cons.mp hc with hc | hc
      · exact Or.inl (hc.trans hhead)
      · exact Or.inr (isFourDigits_chars h c hc)
  · exact Or.inr (isFourDigits_chars h c hc)

theorem digit_or_underscore_props {c : Char} (h : c = '_' ∨ c.isDigit = true) :
    c ≠ '/' ∧ c ≠ '\\' ∧ lcChar c ≠ '.' ∧ lcChar c ≠ '%' := by
  rcases h with h | h
  · subst h
    refine ⟨by decide, by decide, by decide, by decide⟩
  · refine ⟨?_, ?_, ?_, ?_⟩
    · intro hc
      rw [hc] at h
      exact absurd h (by decide)
    · intro hc
      rw [hc] at h
      exact absurd h (by decide)
    · intro hc
      rw [lcChar_eq_dot hc] at h
      exact absurd h (by decide)
    · intro hc
      rw [lcChar_eq_pct hc] at h
      exact absurd h (by decide)

theorem goodSeg_of_isYearSeg {y : List Char} (h : isYearSeg y = true) :
    goodSeg y := by
  have hchars := yearSeg_chars h
  have hne : y ≠ [] := by
    intro hc
    rw [hc] at h
    exact absurd h (by simp [isYearSeg_nil])
  rcases List.exists_cons_of_ne_nil hne with ⟨c0, cs, hy⟩
  have hc0 := digit_or_underscore_props (hchars c0 (hy ▸ List.mem_cons_self _ _))
  refine ⟨?_, ?_, ?_, ?_⟩
  · intro hc
    exact (digit_or_underscore_props (hchars '/' hc)).1 rfl
  · intro hc
    exact (digit_or_underscore_props (hchars '\\' hc)).2.1 rfl
  · rw [hy]
    unfold isDoubleDotBuf dotdotForms lcList
    simp only [List.map_cons, List.mem_cons]
    have h1 : ¬(lcChar c0 :: List.map lcChar cs = ['.', '.']) := by
      intro hc
      exact hc0.2.2.1 (List.cons.injEq .. ▸ hc).1
    have h2 : ¬(lcChar c0 :: List.map lcChar cs = ['.', '%', '2', 'e']) := by
      intro hc
      exact hc0.2.2.1 (List.cons.injEq .. ▸ hc).1
    have h3 : ¬(lcChar c0 :: List.map lcChar cs = ['%', '2', 'e', '.']) := by
      intro hc
      exact hc0.2.2.2 (List.cons.injEq .. ▸ hc).1
    have h4 : ¬(lcChar c0 :: List.map lcChar cs = ['%', '2', 'e', '%', '2', 'e']) := by
      intro hc
      exact hc0.2.2.2 (List.cons.injEq .. ▸ hc).1
    simp [h1, h2, h3, h4]
  · rw [hy]
    unfold isSingleDotBuf lcList
    simp only [List.map_cons]
    have h1 : ¬(lcChar c0 :: List.map lcChar cs = ['.']) := by
      intro hc
      exact hc0.2.2.1 (List.cons.injEq .. ▸ hc).1
    have h2 : ¬(lcChar c0 :: List.map lcChar cs = ['%', '2', 'e']) := by
      intro hc
      exact hc0.2.2.2 (List.cons.injEq .. ▸ hc).1
    simp [h1, h2]

theorem yearFixSegs_cons3 (repl s0 s1 s2 : List Char) (rest : List (List Char)) :
    yearFixSegs repl (s0 :: s1 :: s2 :: rest) =
      if lcList s0 = cbSeg ∧ isYearSeg s1 = true then s0 :: repl :: s2 :: rest
      else s0 :: yearFixSegs repl (s1 :: s2 :: rest) := rfl

theorem yearFixSegs_good {repl : List Char} (hrepl : goodSeg repl) :
    ∀ segs : List (List Char), (∀ s ∈ segs, goodSeg s) →
      ∀ s ∈ yearFixSegs repl segs, goodSeg s := by
  intro segs
  induction segs with
  | nil =>
    intro _ s hs
    simp [yearFixSegs] at hs
  | cons s0 rest ih =>
    intro hall s hs
    cases rest with
    | nil =>
      rw [show yearFixSegs repl [s0] = [s0] from rfl] at hs
      exact hall s hs
    | cons s1 rest2 =>
      cases rest2 with
      | nil =>
        rw [show yearFixSegs repl [s0, s1] = [s0, s1] from rfl] at hs
        exact hall s hs
      | cons s2 rest3 =>
        rw [yearFixSegs_cons3] at hs
        split at hs
        · rcases List.mem_cons.mp hs with hs | hs
          · exact hs ▸ hall s0 (List.mem_cons_self _ _)
          · rcases List.mem_cons.mp hs with hs | hs
            · exact hs ▸ hrepl
            · exact hall s (List.mem_cons_of_mem _ (List.mem_cons_of_mem _ hs))
        · rcases List.mem_cons.mp hs with hs | hs
          · exact hs ▸ hall s0 (List.mem_cons_self _ _)
          · exact ih (fun x hx => hall x (List.mem_cons_of_mem _ hx)) s hs

theorem yearFixSegs_idem {repl : List Char} (hy : isYearSeg repl = true) :
    ∀ segs : List (List Char),
      yearFixSegs repl (yearFixSegs repl segs) = yearFixSegs repl segs := by
  intro segs
  induction segs with
  | nil => rfl
  | cons s0 rest ih =>
    cases rest with
    | nil => rfl
    | cons s1 rest2 =>
      cases rest2 with
      | nil => rfl
      | cons s2 rest3 =>
        by_cases hcond : lcList s0 = cbSeg ∧ isYearSeg s1 = true
        · rw [yearFixSegs_cons3, if_pos hcond, yearFixSegs_cons3,
            if_pos ⟨hcond.1, hy⟩]
        · rw [yearFixSegs_cons3, if_neg hcond]
          have hshape : ∃ t2 trest, yearFixSegs repl (s1 :: s2 :: rest3) =
              s1 :: t2 :: trest := by
            cases rest3 with
            | nil => exact ⟨s2, [], rfl⟩
            | cons s3 rest4 =>
              by_cases hc2 : lcList s1 = cbSeg ∧ isYearSeg s2 = true
              · exact ⟨repl, s3 :: rest4, by rw [yearFixSegs_cons3, if_pos hc2]⟩
              · rcases List.exists_cons_of_ne_nil
                  (@yearFixSegs_ne_nil repl (s2 :: s3 :: rest4)
                    (show s2 :: s3 :: rest4 ≠ [] from by simp)) with ⟨t2, trest, hX⟩
                exact ⟨t2, trest, by rw [yearFixSegs_cons3, if_neg hc2, hX]⟩
          rcases hshape with ⟨t2, trest, hT⟩
          rw [hT, yearFixSegs_cons3, if_neg hcond, ← hT, ih]

theorem hostFixStep_pathname (cfg : InjectionConfig) (u : JsUrl) :
    (hostFixStep cfg u).pathname = u.pathname := by
  unfold hostFixStep
  split <;> rfl

theorem hostFixStep_idem (cfg : InjectionConfig) (u : JsUrl) :
    hostFixStep cfg (hostFixStep cfg u) = hostFixStep cfg u := by
  by_cases h : cfg.forceHostReplacement = true ∧ u.hostname = cfg.hostNeedingFix
  · have h1 : hostFixStep cfg u =
        { u with hostname := cfg.hostReplacement, port := "" } := by
      unfold hostFixStep
      rw [if_pos h]
    rw [h1]
    unfold hostFixStep
    split
    · rfl
    · rfl
  · have h1 : hostFixStep cfg u = u := by
      unfold hostFixStep
      rw [if_neg h]
    rw [h1, h1]

theorem hostFixStep_absorb (cfg : InjectionConfig) (u : JsUrl) :
    hostFixStep cfg (yearFixStep cfg (hostFixStep cfg u)) =
      yearFixStep cfg (hostFixStep cfg u) := by
  by_cases hy : cfg.applyYearRewrite = true
  · by_cases hh : cfg.forceHostReplacement = true ∧ u.hostname = cfg.hostNeedingFix
    · have h1 : hostFixStep cfg u =
          { u with hostname := cfg.hostReplacement, port := "" } := by
        unfold hostFixStep
        rw [if_pos hh]
      rw [h1]
      unfold yearFixStep
      rw [if_pos hy]
      unfold hostFixStep
      split
      · rfl
      · rfl
    · have h1 : hostFixStep cfg u = u := by
        unfold hostFixStep
        rw [if_neg hh]
      rw [h1]
      unfold yearFixStep
      rw [if_pos hy]
      unfold hostFixStep
      rw [if_neg hh]
  · have h1 : yearFixStep cfg (hostFixStep cfg u) = hostFixStep cfg u := by
      unfold yearFixStep
      rw [if_neg hy]
    rw [h1, hostFixStep_idem]

/-- The serialisation of a good segment list re-parses to itself under the
pathname setter. -/
theorem setPathString_joinP {T : List (List Char)} (hne : T ≠ [])
    (hgood : ∀ s ∈ T, goodSeg s) :
    setPathString (String.mk (joinP T)) = String.mk (joinP T) := by
  unfold setPathString
  have hd : dropLeadSlash (String.mk (joinP T)).data = interJoin T := by
    simp [joinP, dropLeadSlash]
  rw [hd, parsePathSegs_interJoin hne hgood]

theorem jsYearReplace_joinP {p d : String} {T : List (List Char)}
    (hgood : ∀ s ∈ T, goodSeg s) :
    jsYearReplace p d (String.mk (joinP T)) =
      String.mk (joinP (yearFixSegs (p.data ++ d.data) T)) := by
  unfold jsYearReplace
  rw [show (String.mk (joinP T)).data = joinP T from rfl,
    yearReplace_transfer T (fun x hx => (hgood x hx).1)]

/-- On a canonical pathname, assigning the year-rewritten pathname through
the setter is idempotent, provided the replacement is itself year-shaped. -/
theorem setPath_yearReplace_canon (p d s : String)
    (hy : isYearSeg (p.data ++ d.data) = true)
    (hcanon : setPathString s = s) :
    setPathString (jsYearReplace p d (setPathString (jsYearReplace p d s))) =
      setPathString (jsYearReplace p d s) := by
  have hne0 : parsePathSegs (dropLeadSlash s.data) ≠ [] := parsePathAux_ne_nil
  have hgood0 : ∀ x ∈ parsePathSegs (dropLeadSlash s.data), goodSeg x :=
    parsePathSegs_good
  have h0 : s = String.mk (joinP (parsePathSegs (dropLeadSlash s.data))) := by
    conv_lhs => rw [← hcanon]
    rfl
  have hTgood : ∀ x ∈ yearFixSegs (p.data ++ d.data)
      (parsePathSegs (dropLeadSlash s.data)), goodSeg x :=
    yearFixSegs_good (goodSeg_of_isYearSeg hy) _ hgood0
  have hTne : yearFixSegs (p.data ++ d.data)
      (parsePathSegs (dropLeadSlash s.data)) ≠ [] :=
    yearFixSegs_ne_nil hne0
  have step1 : jsYearReplace p d s = String.mk (joinP (yearFixSegs
      (p.data ++ d.data) (parsePathSegs (dropLeadSlash s.data)))) := by
    conv_lhs => rw [h0]
    exact jsYearReplace_joinP hgood0
  rw [step1, setPathString_joinP hTne hTgood, jsYearReplace_joinP hTgood,
    yearFixSegs_idem hy, setPathString_joinP hTne hTgood]

theorem yearFixStep_after (cfg : InjectionConfig) (w : JsUrl)
    (hshape : cfg.applyYearRewrite = true →
      isYearSeg (cfg.yearPre.data ++ cfg.courseYearDigits.data) = true)
    (hcanon : setPathString w.pathname = w.pathname) :
    yearFixStep cfg (yearFixStep cfg w) = yearFixStep cfg w := by
  by_cases hy : cfg.applyYearRewrite = true
  · have h1 : yearFixStep cfg w = { w with pathname := setPathString (jsYearReplace cfg.yearPre cfg.courseYearDigits w.pathname) } := by
      unfold yearFixStep
      rw [if_pos hy]
    rw [h1]
    unfold yearFixStep
    rw [if_pos hy]
    have hkey := setPath_yearReplace_canon cfg.yearPre cfg.courseYearDigits
      w.pathname (hshape hy) hcanon
    show JsUrl.mk w.scheme w.hostname w.port
        (setPathString (jsYearReplace cfg.yearPre cfg.courseYearDigits
          (setPathString (jsYearReplace cfg.yearPre cfg.courseYearDigits
            w.pathname))))
        w.search w.hash =
      JsUrl.mk w.scheme w.hostname w.port
        (setPathString (jsYearReplace cfg.yearPre cfg.courseYearDigits
          w.pathname))
        w.search w.hash
    rw [hkey]
  · have h1 : ∀ v : JsUrl, yearFixStep cfg v = v := by
      intro v
      unfold yearFixStep
      rw [if_neg hy]
    rw [h1, h1]

/-- C7: `normalizeUrl` is idempotent.  On a URL whose pathname is canonical
(a fixed point of the WHATWG pathname setter, as every pathname read back
from a parsed URL is) and with a year replacement of the year-segment shape
`_?\d{4}` (as built by the config: `yearPrefix + courseYearDigits`), applying
`normalizeUrl` twice gives the same URL as applying it once: the host fix
replaces by a fixed hostname and the year rewrite rewrites the year segment
to a segment that still matches the year pattern. -/
theorem c7_normalizeUrl_idempotent (cfg : InjectionConfig) (u : JsUrl)
    (hcanon : setPathString u.pathname = u.pathname)
    (hshape : cfg.applyYearRewrite = true →
      isYearSeg (cfg.yearPre.data ++ cfg.courseYearDigits.data) = true) :
    normalizeUrl cfg (normalizeUrl cfg u) = normalizeUrl cfg u := by
  unfold normalizeUrl
  rw [hostFixStep_absorb]
  have hcanon2 : setPathString (hostFixStep cfg u).pathname =
      (hostFixStep cfg u).pathname := by
    rw [hostFixStep_pathname]
    exact hcanon
  exact yearFixStep_after cfg (hostFixStep cfg u) hshape hcanon2

theorem c7_normalizeUrl_idempotent_witness :
    setPathString "/course_builder/2223/MATH1010/index.html" =
        "/course_builder/2223/MATH1010/index.html" ∧
    normalizeUrl
        ⟨true, "", "2425", "https://www.math.cuhk.edu.hk/~", true,
          "137.189.49.33", "www.math.cuhk.edu.hk"⟩
        (normalizeUrl
          ⟨true, "", "2425", "https://www.math.cuhk.edu.hk/~", true,
            "137.189.49.33", "www.math.cuhk.edu.hk"⟩
          ⟨"https", "137.189.49.33", "",
            "/course_builder/2223/MATH1010/index.html", "", ""⟩) =
      normalizeUrl
        ⟨true, "", "2425", "https://www.math.cuhk.edu.hk/~", true,
          "137.189.49.33", "www.math.cuhk.edu.hk"⟩
        ⟨"https", "137.189.49.33", "",
          "/course_builder/2223/MATH1010/index.html", "", ""⟩ :=
  ⟨rfl, c7_normalizeUrl_idempotent _ _ rfl (fun _ => rfl)⟩

/-! ## C8: exact effect of the year rewrite on path segments -/

/-- Position `i` carries a match of the year regex: segment `i` is the
`course_builder` anchor (case-insensitively), segment `i+1` is a year
segment, and a further segment follows (the regex requires the trailing
slash). -/
def yearAnchorAt (segs : List (List Char)) (i : Nat) : Prop :=
  i + 2 < segs.length ∧ lcList (segs.getD i []) = cbSeg ∧
    isYearSeg (segs.getD (i + 1) []) = true

instance (segs : List (List Char)) (i : Nat) : Decidable (yearAnchorAt segs i) :=
  inferInstanceAs (Decidable (_ ∧ _ ∧ _))

theorem yearFixSegs_first_match {repl : List Char} :
    ∀ (segs : List (List Char)) (i : Nat), yearAnchorAt segs i →
      (∀ j, j < i → ¬ yearAnchorAt segs j) →
      yearFixSegs repl segs =
        segs.take (i + 1) ++ repl :: segs.drop (i + 2) := by
  intro segs
  induction segs with
  | nil =>
    intro i hi _
    have := hi.1
    simp at this
  | cons s0 rest ih =>
    intro i hi hmin
    cases i with
    | zero =>
      obtain ⟨hlen, hc, hy⟩ := hi
      cases rest with
      | nil => simp at hlen
      | cons s1 rest2 =>
        cases rest2 with
        | nil => simp at hlen
        | cons s2 rest3 =>
          have hcond : lcList s0 = cbSeg ∧ isYearSeg s1 = true := by
            constructor
            · simpa [List.getD_cons_zero] using hc
            · simpa [List.getD_cons_succ, List.getD_cons_zero] using hy
          rw [yearFixSegs_cons3, if_pos hcond]
          simp
    | succ k =>
      obtain ⟨hlen, hc, hy⟩ := hi
      cases rest with
      | nil =>
        simp only [List.length_cons, List.length_nil] at hlen
        omega
      | cons s1 rest2 =>
        cases rest2 with
        | nil =>
          simp only [List.length_cons, List.length_nil] at hlen
          omega
        | cons s2 rest3 =>
          have hnot0 := hmin 0 (Nat.succ_pos k)
          have hcondne : ¬(lcList s0 = cbSeg ∧ isYearSeg s1 = true) := by
            intro hc0
            apply hnot0
            refine ⟨?_, ?_, ?_⟩
            · simp only [List.length_cons]
              omega
            · simpa [List.getD_cons_zero] using hc0.1
            · simpa [List.getD_cons_succ, List.getD_cons_zero] using hc0.2
          rw [yearFixSegs_cons3, if_neg hcondne]
          have hanchor : yearAnchorAt (s1 :: s2 :: rest3) k := by
            refine ⟨?_, ?_, ?_⟩
            · have hl := hlen
              simp only [List.length_cons] at hl ⊢
              omega
            · simpa [List.getD_cons_succ] using hc
            · simpa [List.getD_cons_succ] using hy
          have hminr : ∀ j, j < k → ¬ yearAnchorAt (s1 :: s2 :: rest3) j := by
            intro j hj hja
            apply hmin (j + 1) (Nat.succ_lt_succ hj)
            refine ⟨?_, ?_, ?_⟩
            · have hl := hja.1
              simp only [List.length_cons] at hl ⊢
              omega
            · simpa [List.getD_cons_succ] using hja.2.1
            · simpa [List.getD_cons_succ] using hja.2.2
          rw [ih k hanchor hminr]
          simp [List.take_succ_cons, List.drop_succ_cons]

theorem yearFixSegs_no_match {repl : List Char} :
    ∀ segs : List (List Char), (∀ i, ¬ yearAnchorAt segs i) →
      yearFixSegs repl segs = segs := by
  intro segs
  induction segs with
  | nil => intro _; rfl
  | cons s0 rest ih =>
    intro hno
    cases rest with
    | nil => rfl
    | cons s1 rest2 =>
      cases rest2 with
      | nil => rfl
      | cons s2 rest3 =>
        have hcondne : ¬(lcList s0 = cbSeg ∧ isYearSeg s1 = true) := by
          intro hc0
          apply hno 0
          refine ⟨?_, ?_, ?_⟩
          · simp only [List.length_cons]
            omega
          · simpa [List.getD_cons_zero] using hc0.1
          · simpa [List.getD_cons_succ, List.getD_cons_zero] using hc0.2
        rw [yearFixSegs_cons3, if_neg hcondne]
        have hr : ∀ i, ¬ yearAnchorAt (s1 :: s2 :: rest3) i := by
          intro i hai
          apply hno (i + 1)
          refine ⟨?_, ?_, ?_⟩
          · have hl := hai.1
            simp only [List.length_cons] at hl ⊢
            omega
          · simpa [List.getD_cons_succ] using hai.2.1
          · simpa [List.getD_cons_succ] using hai.2.2
        rw [ih hr]

/-- C8: with the year-rewrite rule configured, the rewrite replaces exactly
the year segment after the first case-insensitive `course_builder` anchor
(the segment list up to and including the anchor and everything after the
replaced segment are kept verbatim), leaves a segment list with no anchored
year match unchanged, and on the claim's examples:
`/course_builder/2223/x` with prefix `""` and digits `"2425"` becomes
`/course_builder/2425/x`; `/course_builder/_2223/x` with prefix `"_"`
becomes `/course_builder/_2425/x`; the anchor matches case-insensitively
and is itself preserved verbatim; a path without the anchor (even with a
numeric-looking segment) is unchanged. -/
theorem c8_year_rewrite_exact (repl : List Char) :
    (∀ (segs : List (List Char)) (i : Nat), yearAnchorAt segs i →
      (∀ j, j < i → ¬ yearAnchorAt segs j) →
      yearFixSegs repl segs =
        segs.take (i + 1) ++ repl :: segs.drop (i + 2)) ∧
    (∀ segs : List (List Char), (∀ i, ¬ yearAnchorAt segs i) →
      yearFixSegs repl segs = segs) ∧
    jsYearReplace "" "2425" "/course_builder/2223/x" =
      "/course_builder/2425/x" ∧
    jsYearReplace "_" "2425" "/course_builder/_2223/x" =
      "/course_builder/_2425/x" ∧
    jsYearReplace "" "2425" "/COURSE_Builder/2223/x" =
      "/COURSE_Builder/2425/x" ∧
    jsYearReplace "" "2425" "/notes/2223/x" = "/notes/2223/x" :=
  ⟨fun segs i => yearFixSegs_first_match segs i,
   fun segs => yearFixSegs_no_match segs, rfl, rfl, rfl, rfl⟩

theorem c8_year_rewrite_exact_witness :
    yearAnchorAt [['d'], "course_builder".data, ['2', '0', '2', '3'], ['y']] 1 ∧
    yearFixSegs ['2', '4', '2', '5']
        [['d'], "course_builder".data, ['2', '0', '2', '3'], ['y']] =
      [['d'], "course_builder".data, ['2', '4', '2', '5'], ['y']] :=
  ⟨by decide,
   ((c8_year_rewrite_exact ['2', '4', '2', '5']).1
      [['d'], "course_builder".data, ['2', '0', '2', '3'], ['y']] 1
      (by decide) (by decide)).trans (by decide)⟩

/-! ## C2: the in-page li pass versus the pipeline-side usableUrls filter -/

/-- An `<a>` element as the injected script sees it: the resolved `href`
property string and the result of `new URL(a.href, location.href)` (`none`
when URL construction throws). -/
structure DomAnchor where
  href : String
  resolved : Option JsUrl
deriving DecidableEq, Repr

/-- The in-page li pass (src/src/index.ts:306-318): skip `li` elements
without an anchor, skip links whose `href` contains `javascript:`, skip
hrefs that `new URL` rejects, and push the normalized URL of every other
link.  No other rule is applied here. -/
def inPageUrls (cfg : InjectionConfig) : List (Option DomAnchor) → List JsUrl
  | [] => []
  | none :: rest => inPageUrls cfg rest
  | some a :: rest =>
    if jsIncludes a.href "javascript:" then inPageUrls cfg rest
    else
      match a.resolved with
      | none => inPageUrls cfg rest
      | some u => normalizeUrl cfg u :: inPageUrls cfg rest

/-- `PMA_NAME` (src/src/index.ts:13). -/
def PMA_NAME : String := "www.math.cuhk.edu.hk"

/-- `PMA_IP` (src/src/index.ts:12). -/
def PMA_IP : String := "137.189.49.33"

/-- The source's `STAFF_PREFIX` constant (src/src/index.ts:21). -/
def STAFF_PRE : String := "https://www.math.cuhk.edu.hk/~"

/-- The predicate of `usableUrls` (src/src/index.ts:344-354) on a
normalized URL.  The filtered string is `fixed.toString()`, i.e. the
serialisation `u.href`, and `new URL(url)` re-parses it back into the same
components, so the host and path tests read the record's fields;
`ALLOWED_HOSTS` is the two-element set `{PMA_NAME, PMA_IP}`. -/
def usableFilter (u : JsUrl) : Bool :=
  if strStarts u.href STAFF_PRE = true then false
  else if u.hostname ≠ PMA_NAME ∧ u.hostname ≠ PMA_IP then false
  else if strStarts u.pathname "/course_builder/" = false then false
  else true

/-- `usableUrls`: the pipeline-side second pass over the in-page list. -/
def usableUrls (cfg : InjectionConfig) (lis : List (Option DomAnchor)) :
    List JsUrl :=
  (inPageUrls cfg lis).filter usableFilter

/-- C2 counterexample: the two passes are not identical.  A staff link
(`https://www.math.cuhk.edu.hk/~pschan/teach.pdf`) is kept by the in-page
li pass — which only drops `javascript:` links and unparsable hrefs — but
dropped by the pipeline-side `usableUrls` filter. -/
theorem c2_identical_passes_counterexample :
    inPageUrls
        ⟨false, "", "", "https://www.math.cuhk.edu.hk/~", false, "", ""⟩
        [some ⟨"https://www.math.cuhk.edu.hk/~pschan/teach.pdf",
          some ⟨"https", "www.math.cuhk.edu.hk", "", "/~pschan/teach.pdf",
            "", ""⟩⟩] =
      [⟨"https", "www.math.cuhk.edu.hk", "", "/~pschan/teach.pdf", "", ""⟩] ∧
    usableUrls
        ⟨false, "", "", "https://www.math.cuhk.edu.hk/~", false, "", ""⟩
        [some ⟨"https://www.math.cuhk.edu.hk/~pschan/teach.pdf",
          some ⟨"https", "www.math.cuhk.edu.hk", "", "/~pschan/teach.pdf",
            "", ""⟩⟩] =
      ([] : List JsUrl) :=
  ⟨rfl, rfl⟩

/-- C2 (amended): the two passes are not extensionally equal predicates.
The in-page li pass drops only `javascript:` links and hrefs that fail to
parse; the staff-prefix, allowed-host and path-prefix rules live solely in
the pipeline-side filter.  What does hold: `usableUrls` is exactly the
in-page list filtered by `usableFilter`, so a URL survives to the download
stage iff the in-page pass produced it and it passes the pipeline-side
predicate. -/
theorem c2_usable_is_filtered_inpage (cfg : InjectionConfig)
    (lis : List (Option DomAnchor)) (u : JsUrl) :
    u ∈ usableUrls cfg lis ↔
      u ∈ inPageUrls cfg lis ∧ usableFilter u = true := by
  simp [usableUrls, List.mem_filter]

/-! ## C9: the a[href] rewrite pass -/

/-- `baseDir` (src/src/index.ts:266): `location.pathname` if it ends with
`/`, otherwise `location.pathname.replace(/[^/]+$/, '/')` — the trailing
run of non-slash characters is replaced by a `/`. -/
def baseDirOf (pathname : String) : String :=
  if pathname.data.getLast? = some '/' then pathname
  else if pathname.data.reverse.takeWhile (fun c => c ≠ '/') = [] then pathname
  else String.mk
    ((pathname.data.reverse.dropWhile (fun c => c ≠ '/')).reverse ++ ['/'])

/-- An `a[href]` element in the rewrite pass: the raw `href` attribute and
the result of `new URL(rawHref, location.href)` (`none` when it throws). -/
structure RewriteAnchor where
  rawHref : String
  resolved : Option JsUrl
deriving DecidableEq, Repr

/-- The drop conditions of the a[href] pass (src/src/index.ts:322-327):
falsy raw href, `javascript:` href, unparsable href, or a normalized URL
with the staff prefix.  A dropped anchor is left untouched by the pass. -/
def droppedAnchor (cfg : InjectionConfig) (a : RewriteAnchor) : Bool :=
  if a.rawHref = "" ∨ strStarts a.rawHref "javascript:" = true then true
  else
    match a.resolved with
    | none => true
    | some u => strStarts (normalizeUrl cfg u).href cfg.staffPre

/-- The new `href` attribute the a[href] pass (src/src/index.ts:320-336)
leaves on one anchor: the early returns keep the raw attribute; otherwise a
same-origin `/course_builder/` URL becomes `toRelative(pathname) + search +
hash` and anything else becomes the absolute normalized serialisation. -/
def rewriteAnchorHref (cfg : InjectionConfig) (loc : JsUrl)
    (a : RewriteAnchor) : String :=
  if a.rawHref = "" ∨ strStarts a.rawHref "javascript:" = true then a.rawHref
  else
    match a.resolved with
    | none => a.rawHref
    | some u =>
      if strStarts (normalizeUrl cfg u).href cfg.staffPre = true then a.rawHref
      else if (normalizeUrl cfg u).origin = loc.origin ∧
          strStarts (normalizeUrl cfg u).pathname "/course_builder/" = true then
        toRelative (splitSegments (baseDirOf loc.pathname))
            (normalizeUrl cfg u).pathname ++
          (normalizeUrl cfg u).search ++ (normalizeUrl cfg u).hash
      else (normalizeUrl cfg u).href

/-- C9: every dropped anchor (falsy or `javascript:` raw href, unparsable
href, or staff-prefixed normalized URL) keeps its original href attribute
unchanged; every non-dropped anchor has its href replaced — by the relative
path plus the original query and fragment when the normalized URL is
same-origin under `/course_builder/`, and by the absolute normalized URL
string otherwise. -/
theorem c9_rewrite_pass_frame (cfg : InjectionConfig) (loc : JsUrl)
    (a : RewriteAnchor) :
    (droppedAnchor cfg a = true → rewriteAnchorHref cfg loc a = a.rawHref) ∧
    (∀ u : JsUrl, a.resolved = some u → droppedAnchor cfg a = false →
      rewriteAnchorHref cfg loc a =
        if (normalizeUrl cfg u).origin = loc.origin ∧
            strStarts (normalizeUrl cfg u).pathname "/course_builder/" = true
        then
          toRelative (splitSegments (baseDirOf loc.pathname))
              (normalizeUrl cfg u).pathname ++
            (normalizeUrl cfg u).search ++ (normalizeUrl cfg u).hash
        else (normalizeUrl cfg u).href) := by
  constructor
  · intro hd
    unfold rewriteAnchorHref
    unfold droppedAnchor at hd
    by_cases h1 : a.rawHref = "" ∨ strStarts a.rawHref "javascript:" = true
    · rw [if_pos h1]
    · rw [if_neg h1]
      rw [if_neg h1] at hd
      cases hres : a.resolved with
      | none => simp only [hres]
      | some u =>
        simp only [hres] at hd ⊢
        rw [if_pos hd]
  · intro u hres hnd
    unfold rewriteAnchorHref
    unfold droppedAnchor at hnd
    have h1 : ¬(a.rawHref = "" ∨ strStarts a.rawHref "javascript:" = true) := by
      intro hc
      rw [if_pos hc] at hnd
      exact absurd hnd (by decide)
    rw [if_neg h1]
    rw [if_neg h1] at hnd
    simp only [hres] at hnd ⊢
    have h2 : ¬(strStarts (normalizeUrl cfg u).href cfg.staffPre = true) := by
      simp [hnd]
    rw [if_neg h2]

theorem c9_rewrite_pass_frame_witness :
    droppedAnchor
        ⟨false, "", "", "https://www.math.cuhk.edu.hk/~", false, "", ""⟩
        ⟨"../MATH1010/notes.pdf",
          some ⟨"https", "www.math.cuhk.edu.hk", "",
            "/course_builder/2223/MATH1010/notes.pdf", "", ""⟩⟩ = false ∧
    rewriteAnchorHref
        ⟨false, "", "", "https://www.math.cuhk.edu.hk/~", false, "", ""⟩
        ⟨"https", "www.math.cuhk.edu.hk", "",
          "/course_builder/2223/MATH2010/index.html", "", ""⟩
        ⟨"../MATH1010/notes.pdf",
          some ⟨"https", "www.math.cuhk.edu.hk", "",
            "/course_builder/2223/MATH1010/notes.pdf", "", ""⟩⟩ =
      "../MATH1010/notes.pdf" :=
  ⟨rfl,
   ((c9_rewrite_pass_frame
        ⟨false, "", "", "https://www.math.cuhk.edu.hk/~", false, "", ""⟩
        ⟨"https", "www.math.cuhk.edu.hk", "",
          "/course_builder/2223/MATH2010/index.html", "", ""⟩
        ⟨"../MATH1010/notes.pdf",
          some ⟨"https", "www.math.cuhk.edu.hk", "",
            "/course_builder/2223/MATH1010/notes.pdf", "", ""⟩⟩).2
      ⟨"https", "www.math.cuhk.edu.hk", "",
        "/course_builder/2223/MATH1010/notes.pdf", "", ""⟩
      rfl rfl).trans (by decide)⟩

end CUMATDL
